import Mathlib

/-!
Verification of the sampling/statistics core of a Go metrics library
(`sample_float64.go` and the float64 histogram file).

Numeric values (Go `float64`) are modelled as rationals `ℚ`; machine time
(`time.Time`) is modelled as rational seconds; the pseudo-random draws
(`rand.Float64`, `rand.Int63n`) are modelled as oracle inputs supplied to each
operation; the transcendental `math.Exp` is modelled as an abstract function
parameter `E : ℚ → ℚ` (assumed positive where a claim needs positivity of
`exp`).  Go operations that can panic on out-of-range slice accesses are
modelled in `Option`, returning `none` exactly where the Go code would panic.
-/

namespace GoMetrics

/-! ### List index helpers -/

/-- Elementwise description of `List.getD` after `List.set` at the same index. -/
theorem getD_set_eq {α : Type} (l : List α) (i : Nat) (a d : α) (h : i < l.length) :
    (l.set i a).getD i d = a := by
  induction l generalizing i with
  | nil => simp at h
  | cons x xs ih =>
    cases i with
    | zero => rfl
    | succ n => simpa using ih n (by simpa using h)

/-- Updating one index of a list leaves `getD` at any other index unchanged. -/
theorem getD_set_ne {α : Type} (l : List α) (i j : Nat) (a d : α) (h : i ≠ j) :
    (l.set i a).getD j d = l.getD j d := by
  induction l generalizing i j with
  | nil => rfl
  | cons x xs ih =>
    cases i with
    | zero =>
      cases j with
      | zero => exact absurd rfl h
      | succ m => rfl
    | succ n =>
      cases j with
      | zero => rfl
      | succ m => simpa using ih n m (fun hnm => h (by omega))

/-- Reading the appended part of `l ++ [e]` at index `l.length`. -/
theorem getD_append_last {α : Type} (l : List α) (e d : α) :
    (l ++ [e]).getD l.length d = e := by
  induction l with
  | nil => rfl
  | cons x xs ih => simp [ih]

/-- Reading `l ++ l₂` below `l.length` reads `l`. -/
theorem getD_append_lt {α : Type} (l l₂ : List α) (i : Nat) (d : α) (h : i < l.length) :
    (l ++ l₂).getD i d = l.getD i d := by
  induction l generalizing i with
  | nil => simp at h
  | cons x xs ih =>
    cases i with
    | zero => rfl
    | succ n => simpa using ih n (by simpa using h)

/-- Reading a `take` prefix below its length agrees with the original list. -/
theorem getD_take_lt {α : Type} (l : List α) (n i : Nat) (d : α) (h : i < n) :
    (l.take n).getD i d = l.getD i d := by
  induction l generalizing n i with
  | nil => simp
  | cons x xs ih =>
    cases n with
    | zero => omega
    | succ m =>
      cases i with
      | zero => rfl
      | succ k => simpa using ih m k (by omega)

/-- Every member of a list is read by `getD` at some in-bounds index. -/
theorem mem_iff_getD {α : Type} (l : List α) (e d : α) :
    e ∈ l ↔ ∃ i, i < l.length ∧ l.getD i d = e := by
  induction l with
  | nil => simp
  | cons x xs ih =>
    constructor
    · intro hm
      rcases List.mem_cons.mp hm with h | h
      · exact ⟨0, by simp, h.symm⟩
      · rcases ih.mp h with ⟨i, hi, hg⟩
        exact ⟨i + 1, by simpa using hi, by simpa using hg⟩
    · rintro ⟨i, hi, hg⟩
      cases i with
      | zero => exact hg ▸ List.mem_cons_self x xs
      | succ n =>
        exact List.mem_cons_of_mem x (ih.mpr ⟨n, by simpa using hi, by simpa using hg⟩)

/-- Moving the element at index `k` to the front of `xs.set k x` is a
permutation of `x :: xs`. -/
theorem getD_cons_set_perm {α : Type} (xs : List α) (k : Nat) (x d : α)
    (h : k < xs.length) : (xs.getD k d :: xs.set k x).Perm (x :: xs) := by
  induction xs generalizing k with
  | nil => simp at h
  | cons y ys ih =>
    cases k with
    | zero => simpa using List.Perm.swap x y ys
    | succ m =>
      have hm : m < ys.length := by simpa using h
      have h1 : (ys.getD m d :: y :: ys.set m x).Perm (y :: ys.getD m d :: ys.set m x) :=
        List.Perm.swap y (ys.getD m d) (ys.set m x)
      have h2 : (y :: ys.getD m d :: ys.set m x).Perm (y :: x :: ys) :=
        List.Perm.cons y (ih m hm)
      have h3 : (y :: x :: ys).Perm (x :: y :: ys) := List.Perm.swap x y ys
      exact (h1.trans h2).trans h3

/-! ### The min-heap of `expDecaySampleFloat64` entries

Faithful embedding of `expDecaySampleFloat64Heap` from `sample_float64.go`:
an array-backed binary min-heap keyed by the priority `k`, storing the sampled
value `v`.  The backing Go slice has a fixed capacity (the reservoir size), so
`Push` is modelled in `Option`: it returns `none` exactly when the Go
`h.s = h.s[0 : n+1]` re-slice would exceed the capacity and panic.  `Pop` on an
empty heap reads `h.s[0]` out of bounds in Go, so it returns `none` there. -/

/-- Go struct `expDecaySampleFloat64`: an individual weighted sample, a pair of
priority key `k` and value `v`. -/
structure ExpDecaySample where
  k : ℚ
  v : ℚ
deriving DecidableEq, Repr

/-- Default entry used to totalise out-of-range reads in the model. -/
def dEntry : ExpDecaySample := ⟨0, 0⟩

/-- Key stored at index `i` of the heap array. -/
def hkey (l : List ExpDecaySample) (i : Nat) : ℚ := (l.getD i dEntry).k

/-- Go's parallel assignment `h.s[i], h.s[j] = h.s[j], h.s[i]`. -/
def hswap (l : List ExpDecaySample) (i j : Nat) : List ExpDecaySample :=
  (l.set i (l.getD j dEntry)).set j (l.getD i dEntry)

/-- Loop body iteration of method `up` of `expDecaySampleFloat64Heap`, with an
explicit iteration bound `fuel` so that the recursion is structural (the Go
loop's cursor `(j-1)/2` strictly decreases, so any `fuel > j` is exact).
Go's `i == j` break happens exactly at the root `j = 0` (Go integer division
truncates toward zero, so `(0-1)/2 = 0` there, as in the `Nat` model). -/
def hupGo (fuel : Nat) (l : List ExpDecaySample) (j : Nat) : List ExpDecaySample :=
  match fuel with
  | 0 => l
  | fuel + 1 =>
    if (j - 1) / 2 = j ∨ ¬ hkey l j < hkey l ((j - 1) / 2) then l
    else hupGo fuel (hswap l ((j - 1) / 2) j) ((j - 1) / 2)

/-- Method `up` of `expDecaySampleFloat64Heap`: sift the element at index `j`
towards the root while it is strictly smaller than its parent `(j-1)/2`. -/
def hup (l : List ExpDecaySample) (j : Nat) : List ExpDecaySample :=
  hupGo (j + 1) l j

/-- Runs of the `up` loop are independent of the iteration bound once it
covers the cursor. -/
theorem hupGo_mono (j : Nat) (fuel : Nat) (l : List ExpDecaySample) (h : j < fuel) :
    hupGo fuel l j = hup l j := by
  induction j using Nat.strong_induction_on generalizing fuel l with
  | _ j ih =>
    match fuel, h with
    | fuel + 1, h =>
      rw [hup]
      show (if (j - 1) / 2 = j ∨ ¬ hkey l j < hkey l ((j - 1) / 2) then l
          else hupGo fuel (hswap l ((j - 1) / 2) j) ((j - 1) / 2)) =
        if (j - 1) / 2 = j ∨ ¬ hkey l j < hkey l ((j - 1) / 2) then l
          else hupGo j (hswap l ((j - 1) / 2) j) ((j - 1) / 2)
      split
      · rfl
      · rename_i hbr
        rw [not_or] at hbr
        have hij : (j - 1) / 2 < j := by omega
        rw [ih ((j - 1) / 2) hij fuel _ (by omega), ih ((j - 1) / 2) hij j _ hij]

/-- One-step unfolding of `hup`, matching the Go loop body verbatim. -/
theorem hup_unfold (l : List ExpDecaySample) (j : Nat) :
    hup l j = if (j - 1) / 2 = j ∨ ¬ hkey l j < hkey l ((j - 1) / 2) then l
      else hup (hswap l ((j - 1) / 2) j) ((j - 1) / 2) := by
  rw [hup]
  show (if (j - 1) / 2 = j ∨ ¬ hkey l j < hkey l ((j - 1) / 2) then l
      else hupGo j (hswap l ((j - 1) / 2) j) ((j - 1) / 2)) = _
  split
  · rfl
  · rename_i hbr
    rw [not_or] at hbr
    exact hupGo_mono ((j - 1) / 2) j _ (by omega)

/-- Child index that `down` swaps with: the left child `2*i+1`, or the right
child `2*i+2` when it exists in the region and `!(k[j1] < k[j2])`. -/
def childSel (l : List ExpDecaySample) (i n : Nat) : Nat :=
  if 2 * i + 2 < n ∧ ¬ hkey l (2 * i + 1) < hkey l (2 * i + 2) then 2 * i + 2
  else 2 * i + 1

/-- Loop body iteration of method `down` of `expDecaySampleFloat64Heap`, with
an explicit iteration bound (the cursor strictly increases towards `n`, so any
`fuel ≥ n - i` is exact).  The Go loop's extra `j1 < 0` test only guards
machine-integer overflow and cannot fire in the unbounded model. -/
def hdownGo (fuel : Nat) (l : List ExpDecaySample) (i n : Nat) : List ExpDecaySample :=
  match fuel with
  | 0 => l
  | fuel + 1 =>
    if n ≤ 2 * i + 1 then l
    else
      if ¬ hkey l (childSel l i n) < hkey l i then l
      else hdownGo fuel (hswap l i (childSel l i n)) (childSel l i n) n

/-- Method `down` of `expDecaySampleFloat64Heap`: sift the element at index `i`
downwards inside the region `[0, n)`, swapping with the selected child. -/
def hdown (l : List ExpDecaySample) (i n : Nat) : List ExpDecaySample :=
  hdownGo (n - i) l i n

theorem hdownGo_mono (n : Nat) (k : Nat) : ∀ (i : Nat), n - i = k →
    ∀ (fuel1 fuel2 : Nat) (l : List ExpDecaySample), n - i ≤ fuel1 → n - i ≤ fuel2 →
    hdownGo fuel1 l i n = hdownGo fuel2 l i n := by
  induction k using Nat.strong_induction_on with
  | _ k ih =>
    intro i hk fuel1 fuel2 l h1 h2
    match fuel1, fuel2 with
    | 0, 0 => rfl
    | 0, fuel2 + 1 =>
      have hni : n - i = 0 := by omega
      show l = if n ≤ 2 * i + 1 then l else _
      rw [if_pos (by omega)]
    | fuel1 + 1, 0 =>
      have hni : n - i = 0 := by omega
      show (if n ≤ 2 * i + 1 then l else _) = l
      rw [if_pos (by omega)]
    | fuel1 + 1, fuel2 + 1 =>
      show (if n ≤ 2 * i + 1 then l
          else if ¬ hkey l (childSel l i n) < hkey l i then l
          else hdownGo fuel1 (hswap l i (childSel l i n)) (childSel l i n) n) =
        if n ≤ 2 * i + 1 then l
          else if ¬ hkey l (childSel l i n) < hkey l i then l
          else hdownGo fuel2 (hswap l i (childSel l i n)) (childSel l i n) n
      split
      · rfl
      · split
        · rfl
        · rename_i hbr _
          have hcs1 : 2 * i + 1 ≤ childSel l i n := by
            unfold childSel; split <;> omega
          exact ih (n - childSel l i n) (by omega) (childSel l i n) rfl
            fuel1 fuel2 _ (by omega) (by omega)


/-- One-step unfolding of `hdown`, matching the Go loop body verbatim. -/
theorem hdown_unfold (l : List ExpDecaySample) (i n : Nat) :
    hdown l i n = if n ≤ 2 * i + 1 then l
      else
        if ¬ hkey l (childSel l i n) < hkey l i then l
        else hdown (hswap l i (childSel l i n)) (childSel l i n) n := by
  rcases hni : n - i with _ | fuel
  · rw [hdown, hni]
    show l = if n ≤ 2 * i + 1 then l else _
    rw [if_pos (by omega)]
  · rw [hdown, hni]
    show (if n ≤ 2 * i + 1 then l
        else if ¬ hkey l (childSel l i n) < hkey l i then l
        else hdownGo fuel (hswap l i (childSel l i n)) (childSel l i n) n) = _
    split
    · rfl
    · split
      · rfl
      · rename_i hbr _
        have hcs1 : 2 * i + 1 ≤ childSel l i n := by
          unfold childSel; split <;> omega
        rw [hdown]
        exact hdownGo_mono n (n - childSel l i n) (childSel l i n) rfl fuel _ _
          (by omega) (le_refl _)

/-- Method `Push` of `expDecaySampleFloat64Heap` with the backing slice's
capacity `cap` made explicit: append at the end and sift up; `none` when the Go
re-slice `h.s[0 : n+1]` would exceed the capacity and panic. -/
def heapPush (cap : Nat) (l : List ExpDecaySample) (e : ExpDecaySample) :
    Option (List ExpDecaySample) :=
  if l.length < cap then some (hup (l ++ [e]) l.length) else none

/-- Method `Pop` of `expDecaySampleFloat64Heap`: swap the root with the last
element, sift the new root down over the shortened region, and split off the
last element; `none` when the heap is empty (the Go code would index `h.s[0]`
out of bounds). -/
def heapPop (l : List ExpDecaySample) : Option (ExpDecaySample × List ExpDecaySample) :=
  if l.length = 0 then none
  else
    let n := l.length - 1
    let l2 := hdown (hswap l 0 n) 0 n
    some (l2.getD n dEntry, l2.take n)

/-- Standard binary min-heap shape on the array: every non-root element is at
least its parent. This is the "min-heap property at every node" of the spec. -/
def IsHeap (l : List ExpDecaySample) : Prop :=
  ∀ j, j < l.length → 0 < j → hkey l ((j - 1) / 2) ≤ hkey l j

/-- Heap property restricted to the region `[0, n)` of the array. -/
def IsHeapUpTo (n : Nat) (l : List ExpDecaySample) : Prop :=
  ∀ j, j < n → 0 < j → hkey l ((j - 1) / 2) ≤ hkey l j

instance (l : List ExpDecaySample) : Decidable (IsHeap l) := by
  unfold IsHeap; infer_instance

/-! ### Swap lemmas -/

/-- Writing back the value already present leaves the list unchanged. -/
theorem set_getD_self {α : Type} (l : List α) (i : Nat) (d : α) (h : i < l.length) :
    l.set i (l.getD i d) = l := by
  induction l generalizing i with
  | nil => rfl
  | cons x xs ih =>
    cases i with
    | zero => rfl
    | succ n => simpa using ih n (by simpa using h)

theorem length_hswap (l : List ExpDecaySample) (i j : Nat) :
    (hswap l i j).length = l.length := by
  simp [hswap]

theorem getD_hswap_of_ne (l : List ExpDecaySample) (i j x : Nat)
    (h1 : x ≠ i) (h2 : x ≠ j) : (hswap l i j).getD x dEntry = l.getD x dEntry := by
  unfold hswap
  rw [getD_set_ne _ _ _ _ _ (Ne.symm h2), getD_set_ne _ _ _ _ _ (Ne.symm h1)]

theorem getD_hswap_right (l : List ExpDecaySample) (i j : Nat) (hj : j < l.length) :
    (hswap l i j).getD j dEntry = l.getD i dEntry := by
  unfold hswap
  exact getD_set_eq _ _ _ _ (by simpa using hj)

theorem getD_hswap_left (l : List ExpDecaySample) (i j : Nat) (hi : i < l.length)
    (hij : i ≠ j) : (hswap l i j).getD i dEntry = l.getD j dEntry := by
  unfold hswap
  rw [getD_set_ne _ _ _ _ _ (Ne.symm hij), getD_set_eq _ _ _ _ hi]

theorem hkey_hswap_of_ne (l : List ExpDecaySample) (i j x : Nat)
    (h1 : x ≠ i) (h2 : x ≠ j) : hkey (hswap l i j) x = hkey l x := by
  unfold hkey
  rw [getD_hswap_of_ne l i j x h1 h2]

theorem hkey_hswap_right (l : List ExpDecaySample) (i j : Nat) (hj : j < l.length) :
    hkey (hswap l i j) j = hkey l i := by
  unfold hkey
  rw [getD_hswap_right l i j hj]

theorem hkey_hswap_left (l : List ExpDecaySample) (i j : Nat) (hi : i < l.length)
    (hij : i ≠ j) : hkey (hswap l i j) i = hkey l j := by
  unfold hkey
  rw [getD_hswap_left l i j hi hij]

/-- The Go parallel swap is a permutation of the array. -/
theorem hswap_perm (l : List ExpDecaySample) (i j : Nat)
    (hi : i < l.length) (hj : j < l.length) : (hswap l i j).Perm l := by
  induction l generalizing i j with
  | nil => simp at hi
  | cons x xs ih =>
    by_cases hij : i = j
    · subst hij
      unfold hswap
      rw [List.set_set, set_getD_self _ _ _ hi]
    · cases i with
      | zero =>
        cases j with
        | zero => exact absurd rfl hij
        | succ m =>
          show ((x :: xs).set 0 _ |>.set (m+1) _).Perm (x :: xs)
          have hm : m < xs.length := by simpa using hj
          simpa [hswap, List.set] using getD_cons_set_perm xs m x dEntry hm
      | succ n =>
        cases j with
        | zero =>
          have hn : n < xs.length := by simpa using hi
          simpa [hswap, List.set] using getD_cons_set_perm xs n x dEntry hn
        | succ m =>
          have hn : n < xs.length := by simpa using hi
          have hm : m < xs.length := by simpa using hj
          have : hswap (x :: xs) (n+1) (m+1) = x :: hswap xs n m := by
            simp [hswap, List.set]
          rw [this]
          exact List.Perm.cons x (ih n m hn hm)

/-! ### Sift-up correctness -/

theorem hup_length (j : Nat) (l : List ExpDecaySample) : (hup l j).length = l.length := by
  induction j using Nat.strong_induction_on generalizing l with
  | _ j ih =>
    rw [hup_unfold]
    split
    · rfl
    · rename_i h
      rw [not_or] at h
      rw [ih ((j - 1) / 2) (by omega), length_hswap]

theorem hup_perm (j : Nat) (l : List ExpDecaySample) (hj : j < l.length) :
    (hup l j).Perm l := by
  induction j using Nat.strong_induction_on generalizing l with
  | _ j ih =>
    rw [hup_unfold]
    split
    · exact List.Perm.refl l
    · rename_i h
      rw [not_or] at h
      have hil : (j - 1) / 2 < l.length := by omega
      have hrec := ih ((j - 1) / 2) (by omega) (hswap l ((j - 1) / 2) j)
        (by rw [length_hswap]; omega)
      exact hrec.trans (hswap_perm l _ j hil hj)

/-- Invariant of the `up` loop at cursor `j`: every parent/child pair except
possibly the one above `j` already satisfies the heap order, and the parent of
`j` is already at most every child of `j`. -/
def UpInv (l : List ExpDecaySample) (j : Nat) : Prop :=
  (∀ x, x < l.length → 0 < x → x ≠ j → hkey l ((x - 1) / 2) ≤ hkey l x) ∧
  (0 < j → ∀ c, c < l.length → (c - 1) / 2 = j → hkey l ((j - 1) / 2) ≤ hkey l c)

theorem hup_isHeap (j : Nat) (l : List ExpDecaySample) (hj : j < l.length)
    (hinv : UpInv l j) : IsHeap (hup l j) := by
  induction j using Nat.strong_induction_on generalizing l with
  | _ j ih =>
    rw [hup_unfold]
    split
    · rename_i h
      intro x hx hx0
      by_cases hxj : x = j
      · subst hxj
        rcases h with h | h
        · omega
        · exact le_of_not_lt h
      · exact hinv.1 x hx hx0 hxj
    · rename_i h
      rw [not_or, not_not] at h
      obtain ⟨hne, hlt⟩ := h
      have hij : (j - 1) / 2 < j := by omega
      have hj0 : 0 < j := by omega
      have hil : (j - 1) / 2 < l.length := lt_trans hij hj
      apply ih ((j - 1) / 2) hij _ (by rw [length_hswap]; exact lt_trans hij hj)
      constructor
      · intro x hx hx0 hxi
        rw [length_hswap] at hx
        by_cases hxj : x = j
        · subst hxj
          have e1 : hkey (hswap l ((x - 1) / 2) x) ((x - 1) / 2) = hkey l x :=
            hkey_hswap_left l _ x hil (by omega)
          have e2 : hkey (hswap l ((x - 1) / 2) x) x = hkey l ((x - 1) / 2) :=
            hkey_hswap_right l _ x hx
          rw [e1, e2]
          exact le_of_lt hlt
        · by_cases hpxi : (x - 1) / 2 = (j - 1) / 2
          · have hxnei : x ≠ (j - 1) / 2 := hxi
            have ekx : hkey (hswap l ((j - 1) / 2) j) x = hkey l x :=
              hkey_hswap_of_ne l _ j x hxnei hxj
            have ei : hkey (hswap l ((j - 1) / 2) j) ((j - 1) / 2) = hkey l j :=
              hkey_hswap_left l _ j hil (by omega)
            rw [hpxi, ei, ekx]
            have h1 : hkey l ((j - 1) / 2) ≤ hkey l x := by
              have := hinv.1 x hx hx0 hxj
              rwa [hpxi] at this
            exact le_trans (le_of_lt hlt) h1
          · by_cases hpxj : (x - 1) / 2 = j
            · have ekx : hkey (hswap l ((j - 1) / 2) j) x = hkey l x :=
                hkey_hswap_of_ne l _ j x hxi hxj
              have ej : hkey (hswap l ((j - 1) / 2) j) j = hkey l ((j - 1) / 2) :=
                hkey_hswap_right l _ j hj
              rw [hpxj, ej, ekx]
              exact hinv.2 hj0 x hx hpxj
            · have e1 : hkey (hswap l ((j - 1) / 2) j) x = hkey l x :=
                hkey_hswap_of_ne l _ j x hxi hxj
              have e2 : hkey (hswap l ((j - 1) / 2) j) ((x - 1) / 2) =
                  hkey l ((x - 1) / 2) := hkey_hswap_of_ne l _ j _ hpxi hpxj
              rw [e1, e2]
              exact hinv.1 x hx hx0 hxj
      · intro hi0 c hc hpc
        rw [length_hswap] at hc
        have hpi_ne_i : ((j - 1) / 2 - 1) / 2 ≠ (j - 1) / 2 := by omega
        have hpi_ne_j : ((j - 1) / 2 - 1) / 2 ≠ j := by omega
        have ekpi : hkey (hswap l ((j - 1) / 2) j) (((j - 1) / 2 - 1) / 2) =
            hkey l (((j - 1) / 2 - 1) / 2) :=
          hkey_hswap_of_ne l _ j _ hpi_ne_i hpi_ne_j
        by_cases hcj : c = j
        · have ej : hkey (hswap l ((j - 1) / 2) j) j = hkey l ((j - 1) / 2) :=
            hkey_hswap_right l _ j hj
          rw [hcj, ekpi, ej]
          exact hinv.1 ((j - 1) / 2) hil hi0 (by omega)
        · have hci : c ≠ (j - 1) / 2 := by omega
          have ekc : hkey (hswap l ((j - 1) / 2) j) c = hkey l c :=
            hkey_hswap_of_ne l _ j c hci hcj
          rw [ekpi, ekc]
          have h1 : hkey l (((j - 1) / 2 - 1) / 2) ≤ hkey l ((j - 1) / 2) :=
            hinv.1 ((j - 1) / 2) hil hi0 (by omega)
          have h2 : hkey l ((j - 1) / 2) ≤ hkey l c := by
            have := hinv.1 c hc (by omega) hcj
            rwa [hpc] at this
          exact le_trans h1 h2

/-! ### Sift-down correctness -/

theorem childSel_ge (l : List ExpDecaySample) (i n : Nat) :
    2 * i + 1 ≤ childSel l i n := by
  unfold childSel; split <;> omega

theorem childSel_lt (l : List ExpDecaySample) (i n : Nat) (h : 2 * i + 1 < n) :
    childSel l i n < n := by
  unfold childSel; split <;> omega

theorem childSel_parent (l : List ExpDecaySample) (i n : Nat) :
    (childSel l i n - 1) / 2 = i := by
  have := childSel_ge l i n
  have : childSel l i n = 2 * i + 1 ∨ childSel l i n = 2 * i + 2 := by
    unfold childSel; split <;> omega
  omega

/-- The selected child has the smallest key among the (in-region) children. -/
theorem childSel_min (l : List ExpDecaySample) (i n : Nat) (_h1 : 2 * i + 1 < n)
    (x : Nat) (hx : x < n) (hx0 : 0 < x) (hpx : (x - 1) / 2 = i) :
    hkey l (childSel l i n) ≤ hkey l x := by
  have hx12 : x = 2 * i + 1 ∨ x = 2 * i + 2 := by omega
  unfold childSel
  split
  · rename_i h
    rcases hx12 with rfl | rfl
    · exact le_of_not_lt h.2
    · exact le_refl _
  · rename_i h
    rcases hx12 with rfl | rfl
    · exact le_refl _
    · rw [not_and_or, not_not] at h
      rcases h with h | h
      · omega
      · exact le_of_lt h

theorem hdown_length (l : List ExpDecaySample) (i n : Nat) :
    (hdown l i n).length = l.length := by
  generalize hk : n - i = k
  induction k using Nat.strong_induction_on generalizing l i with
  | _ k ih =>
    rw [hdown_unfold]
    split
    · rfl
    · split
      · rfl
      · rename_i _h1 _h2
        have hcs := childSel_ge l i n
        rw [ih (n - childSel l i n) (by omega) _ _ rfl, length_hswap]

theorem hdown_perm (l : List ExpDecaySample) (i n : Nat) (hn : n ≤ l.length) :
    (hdown l i n).Perm l := by
  generalize hk : n - i = k
  induction k using Nat.strong_induction_on generalizing l i with
  | _ k ih =>
    rw [hdown_unfold]
    split
    · exact List.Perm.refl l
    · split
      · exact List.Perm.refl l
      · rename_i h1 h2
        have hcs1 := childSel_ge l i n
        have hcs2 := childSel_lt l i n (by omega)
        have hrec := ih (n - childSel l i n) (by omega) (hswap l i (childSel l i n))
          (childSel l i n) (by rw [length_hswap]; exact hn) rfl
        exact hrec.trans (hswap_perm l i _ (by omega) (by omega))

/-- Entries at or beyond the region bound `n` are never touched by `down`. -/
theorem hdown_untouched (l : List ExpDecaySample) (i n m : Nat) (hm : n ≤ m) :
    (hdown l i n).getD m dEntry = l.getD m dEntry := by
  generalize hk : n - i = k
  induction k using Nat.strong_induction_on generalizing l i with
  | _ k ih =>
    rw [hdown_unfold]
    split
    · rfl
    · split
      · rfl
      · rename_i h1 h2
        have hcs1 := childSel_ge l i n
        have hcs2 := childSel_lt l i n (by omega)
        rw [ih (n - childSel l i n) (by omega) _ _ rfl,
          getD_hswap_of_ne l i _ m (by omega) (by omega)]

/-- Invariant of the `down` loop at cursor `i` over the region `[0, n)`: every
parent/child pair except possibly those directly below `i` satisfies the heap
order, and the parent of `i` is already at most every child of `i`. -/
def DownInv (l : List ExpDecaySample) (i n : Nat) : Prop :=
  (∀ x, x < n → 0 < x → (x - 1) / 2 ≠ i → hkey l ((x - 1) / 2) ≤ hkey l x) ∧
  (0 < i → ∀ c, c < n → (c - 1) / 2 = i → hkey l ((i - 1) / 2) ≤ hkey l c)

theorem hdown_isHeapUpTo (l : List ExpDecaySample) (i n : Nat) (hn : n ≤ l.length)
    (hinv : DownInv l i n) : IsHeapUpTo n (hdown l i n) := by
  generalize hk : n - i = k
  induction k using Nat.strong_induction_on generalizing l i with
  | _ k ih =>
    rw [hdown_unfold]
    split
    · rename_i h1
      intro x hx hx0
      by_cases hpx : (x - 1) / 2 = i
      · omega
      · exact hinv.1 x hx hx0 hpx
    · split
      · rename_i h1 h2
        intro x hx hx0
        by_cases hpx : (x - 1) / 2 = i
        · rw [hpx]
          exact le_trans (le_of_not_lt h2) (childSel_min l i n (by omega) x hx hx0 hpx)
        · exact hinv.1 x hx hx0 hpx
      · rename_i h1 h2
        rw [not_not] at h2
        have hcs1 := childSel_ge l i n
        have hcs2 := childSel_lt l i n (by omega)
        have hcsl : childSel l i n < l.length := lt_of_lt_of_le hcs2 hn
        have hil : i < l.length := by omega
        have hics : i ≠ childSel l i n := by omega
        have hpcs : (childSel l i n - 1) / 2 = i := childSel_parent l i n
        have ei : hkey (hswap l i (childSel l i n)) i = hkey l (childSel l i n) :=
          hkey_hswap_left l i _ hil hics
        have ecs : hkey (hswap l i (childSel l i n)) (childSel l i n) = hkey l i :=
          hkey_hswap_right l i _ hcsl
        apply ih (n - childSel l i n) (by omega) _ _ (by rw [length_hswap]; exact hn) ?_ rfl
        constructor
        · intro x hx hx0 hpx
          by_cases hpxi : (x - 1) / 2 = i
          · by_cases hxcs : x = childSel l i n
            · rw [hxcs, hpcs, ei, ecs]
              exact le_of_lt h2
            · have ex : hkey (hswap l i (childSel l i n)) x = hkey l x :=
                hkey_hswap_of_ne l i _ x (by omega) hxcs
              rw [hpxi, ei, ex]
              exact childSel_min l i n (by omega) x hx hx0 hpxi
          · by_cases hxi : x = i
            · have hi0 : 0 < i := by omega
              have epi : hkey (hswap l i (childSel l i n)) ((x - 1) / 2) =
                  hkey l ((i - 1) / 2) := by
                rw [hxi]
                exact hkey_hswap_of_ne l i _ _ (by omega) (by omega)
              have ex : hkey (hswap l i (childSel l i n)) x = hkey l (childSel l i n) := by
                rw [hxi]; exact ei
              rw [epi, ex]
              exact hinv.2 hi0 (childSel l i n) hcs2 hpcs
            · have ex : hkey (hswap l i (childSel l i n)) x = hkey l x :=
                hkey_hswap_of_ne l i _ x hxi (by omega)
              have epx : hkey (hswap l i (childSel l i n)) ((x - 1) / 2) =
                  hkey l ((x - 1) / 2) :=
                hkey_hswap_of_ne l i _ _ hpxi hpx
              rw [ex, epx]
              exact hinv.1 x hx hx0 hpxi
        · intro hcs0 c hc hpc
          have hc_ne_i : c ≠ i := by omega
          have hc_ne_cs : c ≠ childSel l i n := by omega
          have ec : hkey (hswap l i (childSel l i n)) c = hkey l c :=
            hkey_hswap_of_ne l i _ c hc_ne_i hc_ne_cs
          have ei2 : hkey (hswap l i (childSel l i n)) ((childSel l i n - 1) / 2) =
              hkey l (childSel l i n) := by
            rw [hpcs]; exact ei
          rw [ec, ei2]
          have := hinv.1 c hc (by omega) (by omega)
          rwa [hpc] at this

/-! ### Push and Pop correctness -/

theorem heapPush_eq_some_iff (cap : Nat) (l : List ExpDecaySample) (e : ExpDecaySample) :
    (∃ l2, heapPush cap l e = some l2) ↔ l.length < cap := by
  unfold heapPush
  split <;> simp_all

theorem heapPush_length (cap : Nat) (l l2 : List ExpDecaySample) (e : ExpDecaySample)
    (h : heapPush cap l e = some l2) : l2.length = l.length + 1 ∧ l2.length ≤ cap := by
  unfold heapPush at h
  split at h
  · rename_i hlt
    obtain rfl : hup (l ++ [e]) l.length = l2 := by simpa using h
    rw [hup_length]
    simp
    omega
  · exact absurd h (by simp)

theorem heapPush_perm (cap : Nat) (l l2 : List ExpDecaySample) (e : ExpDecaySample)
    (h : heapPush cap l e = some l2) : l2.Perm (e :: l) := by
  unfold heapPush at h
  split at h
  · obtain rfl : hup (l ++ [e]) l.length = l2 := by simpa using h
    exact (hup_perm l.length (l ++ [e]) (by simp)).trans (List.perm_append_singleton e l)
  · exact absurd h (by simp)

theorem heapPush_isHeap (cap : Nat) (l l2 : List ExpDecaySample) (e : ExpDecaySample)
    (hh : IsHeap l) (h : heapPush cap l e = some l2) : IsHeap l2 := by
  unfold heapPush at h
  split at h
  · obtain rfl : hup (l ++ [e]) l.length = l2 := by simpa using h
    apply hup_isHeap l.length (l ++ [e]) (by simp)
    constructor
    · intro x hx hx0 hxj
      have hxl : x < l.length := by simp at hx; omega
      have hpxl : (x - 1) / 2 < l.length := by omega
      unfold hkey
      rw [getD_append_lt _ _ _ _ hxl, getD_append_lt _ _ _ _ hpxl]
      exact hh x hxl hx0
    · intro hj0 c hc hpc
      simp at hc
      omega
  · exact absurd h (by simp)

theorem heapPop_eq_none_iff (l : List ExpDecaySample) :
    heapPop l = none ↔ l = [] := by
  unfold heapPop
  split <;> simp_all [List.length_eq_zero]

/-- Concatenating a length-`n` prefix with the `n`-th element recovers a list
of length `n+1`. -/
theorem take_append_getD {α : Type} (l : List α) (n : Nat) (d : α)
    (h : l.length = n + 1) : l.take n ++ [l.getD n d] = l := by
  induction l generalizing n with
  | nil => simp at h
  | cons x xs ih =>
    cases n with
    | zero =>
      have : xs = [] := by
        cases xs with
        | nil => rfl
        | cons y ys => simp at h
      simp [this]
    | succ m =>
      have := ih m (by simpa using h)
      simpa using this

/-- The root of a min-heap is at most every element of the array. -/
theorem isHeap_root_min (l : List ExpDecaySample) (hh : IsHeap l) :
    ∀ x, x < l.length → hkey l 0 ≤ hkey l x := by
  intro x
  induction x using Nat.strong_induction_on with
  | _ x ih =>
    intro hx
    rcases Nat.eq_zero_or_pos x with rfl | hx0
    · exact le_refl _
    · exact le_trans (ih ((x - 1) / 2) (by omega) (by omega)) (hh x hx hx0)

theorem heapPop_eq_some (l : List ExpDecaySample) (m : ExpDecaySample)
    (rest : List ExpDecaySample) (h : heapPop l = some (m, rest)) :
    m = l.getD 0 dEntry ∧ rest.length = l.length - 1 ∧ (m :: rest).Perm l := by
  unfold heapPop at h
  split at h
  · exact absurd h (by simp)
  · rename_i hne
    have hlen : 0 < l.length := by omega
    obtain ⟨hm, hrest⟩ : (hdown (hswap l 0 (l.length - 1)) 0 (l.length - 1)).getD
          (l.length - 1) dEntry = m ∧
        (hdown (hswap l 0 (l.length - 1)) 0 (l.length - 1)).take (l.length - 1) = rest := by
      have := Option.some.inj h
      exact ⟨congrArg Prod.fst this, congrArg Prod.snd this⟩
    have hl2len : (hdown (hswap l 0 (l.length - 1)) 0 (l.length - 1)).length = l.length := by
      rw [hdown_length, length_hswap]
    have huntouched : (hdown (hswap l 0 (l.length - 1)) 0 (l.length - 1)).getD
        (l.length - 1) dEntry = (hswap l 0 (l.length - 1)).getD (l.length - 1) dEntry :=
      hdown_untouched _ 0 (l.length - 1) (l.length - 1) (le_refl _)
    have hroot : (hswap l 0 (l.length - 1)).getD (l.length - 1) dEntry = l.getD 0 dEntry :=
      getD_hswap_right l 0 (l.length - 1) (by omega)
    refine ⟨by rw [← hm, huntouched, hroot], ?_, ?_⟩
    · rw [← hrest]
      simp [hl2len]
    · have hperm2 : (hdown (hswap l 0 (l.length - 1)) 0 (l.length - 1)).Perm l := by
        refine (hdown_perm _ 0 (l.length - 1) (by rw [length_hswap]; omega)).trans ?_
        exact hswap_perm l 0 (l.length - 1) hlen (by omega)
      have hsplit : rest ++ [m] = hdown (hswap l 0 (l.length - 1)) 0 (l.length - 1) := by
        rw [← hm, ← hrest]
        exact take_append_getD _ (l.length - 1) dEntry (by omega)
      have : (rest ++ [m]).Perm l := hsplit ▸ hperm2
      exact (List.perm_append_singleton m rest).symm.trans this

theorem heapPop_isHeap (l : List ExpDecaySample) (m : ExpDecaySample)
    (rest : List ExpDecaySample) (hh : IsHeap l) (h : heapPop l = some (m, rest)) :
    IsHeap rest := by
  unfold heapPop at h
  split at h
  · exact absurd h (by simp)
  · rename_i hne
    have hlen : 0 < l.length := by omega
    have hrest : (hdown (hswap l 0 (l.length - 1)) 0 (l.length - 1)).take (l.length - 1) =
        rest := congrArg Prod.snd (Option.some.inj h)
    have hl2len : (hdown (hswap l 0 (l.length - 1)) 0 (l.length - 1)).length = l.length := by
      rw [hdown_length, length_hswap]
    have hheapUpTo : IsHeapUpTo (l.length - 1)
        (hdown (hswap l 0 (l.length - 1)) 0 (l.length - 1)) := by
      apply hdown_isHeapUpTo _ 0 (l.length - 1) (by rw [length_hswap]; omega)
      constructor
      · intro x hx hx0 hpx
        have e1 : hkey (hswap l 0 (l.length - 1)) x = hkey l x :=
          hkey_hswap_of_ne l 0 (l.length - 1) x (by omega) (by omega)
        have e2 : hkey (hswap l 0 (l.length - 1)) ((x - 1) / 2) = hkey l ((x - 1) / 2) :=
          hkey_hswap_of_ne l 0 (l.length - 1) _ (by omega) (by omega)
        rw [e1, e2]
        exact hh x (by omega) hx0
      · omega
    intro x hx hx0
    rw [← hrest] at hx
    simp [hl2len] at hx
    have hx' : x < l.length - 1 := by omega
    have e1 : hkey rest x = hkey (hdown (hswap l 0 (l.length - 1)) 0 (l.length - 1)) x := by
      unfold hkey
      rw [← hrest, getD_take_lt _ _ _ _ hx']
    have e2 : hkey rest ((x - 1) / 2) =
        hkey (hdown (hswap l 0 (l.length - 1)) 0 (l.length - 1)) ((x - 1) / 2) := by
      unfold hkey
      rw [← hrest, getD_take_lt _ _ _ _ (by omega)]
    rw [e1, e2]
    exact hheapUpTo x hx' hx0

/-- The element removed by `Pop` carries the minimum key of the heap. -/
theorem heapPop_min (l : List ExpDecaySample) (m : ExpDecaySample)
    (rest : List ExpDecaySample) (hh : IsHeap l) (h : heapPop l = some (m, rest)) :
    ∀ e ∈ l, m.k ≤ e.k := by
  intro e he
  obtain ⟨hm, _, _⟩ := heapPop_eq_some l m rest h
  obtain ⟨i, hi, hgi⟩ := (mem_iff_getD l e dEntry).mp he
  have := isHeap_root_min l hh i hi
  unfold hkey at this
  rw [hgi] at this
  rw [hm]
  exact this

/-! ### The statistics engine

Embeddings of the pure statistic functions of `sample_float64.go` over
`List ℚ`.  `math.MaxFloat64` is the exact rational `(2^53 - 1) * 2^971`; the Go
`Max`/`Min` loops seed their accumulator with `∓MaxFloat64`, reproduced
literally.  `math.Sqrt` is transcendental, so `SampleFloat64StdDev` takes the
square-root function as an abstract parameter. -/

/-- Exact value of Go's `math.MaxFloat64`. -/
def maxFloat64 : ℚ := ((2 : ℚ) ^ 53 - 1) * 2 ^ 971

/-- Function `SampleFloat64Sum`: running sum over the slice. -/
def SampleFloat64Sum (values : List ℚ) : ℚ :=
  values.foldl (· + ·) 0

/-- Function `SampleFloat64Max`: `0` on empty input, otherwise a linear scan
starting from `-math.MaxFloat64`. -/
def SampleFloat64Max (values : List ℚ) : ℚ :=
  if values.length = 0 then 0
  else values.foldl (fun mx v => if mx < v then v else mx) (-maxFloat64)

/-- Function `SampleFloat64Min`: `0` on empty input, otherwise a linear scan
starting from `math.MaxFloat64`. -/
def SampleFloat64Min (values : List ℚ) : ℚ :=
  if values.length = 0 then 0
  else values.foldl (fun mn v => if v < mn then v else mn) maxFloat64

/-- Function `SampleFloat64Mean`: `0` on empty input, else `Sum / len`. -/
def SampleFloat64Mean (values : List ℚ) : ℚ :=
  if values.length = 0 then 0
  else SampleFloat64Sum values / values.length

/-- Function `SampleFloat64Variance`: population variance (denominator `n`),
`0` on empty input. -/
def SampleFloat64Variance (values : List ℚ) : ℚ :=
  if values.length = 0 then 0
  else
    (values.foldl (fun acc v => acc + (v - SampleFloat64Mean values) *
      (v - SampleFloat64Mean values)) 0) / values.length

/-- Function `SampleFloat64StdDev`: `math.Sqrt` applied to the variance, with
the square root supplied as an abstract function `sqrtFn`. -/
def SampleFloat64StdDev (sqrtFn : ℚ → ℚ) (values : List ℚ) : ℚ :=
  sqrtFn (SampleFloat64Variance values)

/-- Go conversion `int(x)` from `float64`: truncation toward zero. -/
def goTrunc (q : ℚ) : ℤ :=
  if 0 ≤ q then ⌊q⌋ else -⌊-q⌋

/-- Model of `sort.Sort(values)` with `float64Slice`'s `Less = (<)`: on
rationals the weakly-sorted permutation of a list is unique, so the result of
Go's unstable quicksort is exactly the insertion sort of the list. -/
def sortSort (values : List ℚ) : List ℚ :=
  values.insertionSort (· ≤ ·)

/-- Function `SampleFloat64Percentiles`: `scores` starts as a zero slice of the
same length as `ps`; when the value slice is non-empty it is sorted in place
and each requested `p` is answered from the sorted array. -/
def SampleFloat64Percentiles (values : List ℚ) (ps : List ℚ) : List ℚ :=
  if 0 < values.length then
    ps.map (fun p =>
      if p * ((values.length : ℚ) + 1) < 1 then (sortSort values).getD 0 0
      else if (values.length : ℚ) ≤ p * ((values.length : ℚ) + 1) then
        (sortSort values).getD (values.length - 1) 0
      else
        (sortSort values).getD (goTrunc (p * ((values.length : ℚ) + 1)) - 1).toNat 0 +
          (p * ((values.length : ℚ) + 1) -
            ((⌊p * ((values.length : ℚ) + 1)⌋ : ℤ) : ℚ)) *
          ((sortSort values).getD (goTrunc (p * ((values.length : ℚ) + 1))).toNat 0 -
            (sortSort values).getD (goTrunc (p * ((values.length : ℚ) + 1)) - 1).toNat 0))
  else ps.map (fun _ => 0)

/-- Function `SampleFloat64Percentile`: delegates to `Percentiles` with a
one-element slice and reads its only entry. -/
def SampleFloat64Percentile (values : List ℚ) (p : ℚ) : ℚ :=
  (SampleFloat64Percentiles values [p]).getD 0 0

/-! ### The exponentially-decaying reservoir -/

/-- Modelled from the spec: the constant `rescaleThreshold` is declared in a
repository file outside the analysed sources; the spec fixes it as "a fixed
duration, e.g. one hour", i.e. 3600 seconds.  No claim depends on its value. -/
def rescaleThreshold : ℚ := 3600

/-- Go struct `ExpDecaySampleFloat64` (the mutex is concurrency plumbing with
no functional content).  Time is rational seconds. -/
structure ExpDecaySampleFloat64 where
  alpha : ℚ
  count : ℤ
  reservoirSize : Nat
  t0 : ℚ
  t1 : ℚ
  values : List ExpDecaySample
deriving DecidableEq, Repr

/-- Constructor `NewExpDecaySampleFloat64` at construction time `now` (the
`UseNilMetrics` branch selects the inert variant and is out of scope here). -/
def NewExpDecaySampleFloat64 (reservoirSize : Nat) (alpha : ℚ) (now : ℚ) :
    ExpDecaySampleFloat64 :=
  ⟨alpha, 0, reservoirSize, now, now + rescaleThreshold, []⟩

/-- Method `ExpDecaySampleFloat64.Clear` at wall-clock time `now`. -/
def ExpDecaySampleFloat64.Clear (s : ExpDecaySampleFloat64) (now : ℚ) :
    ExpDecaySampleFloat64 :=
  { s with count := 0, t0 := now, t1 := now + rescaleThreshold, values := [] }

/-- Rescaled copy of a heap entry during the rescale phase of `update`: the Go
loop body `v.k = v.k * math.Exp(-s.alpha * s.t0.Sub(t0).Seconds())`, where the
new window start is `t` and the old one `t0old`. -/
def rescaleEntry (E : ℚ → ℚ) (alpha t t0old : ℚ) (e : ExpDecaySample) : ExpDecaySample :=
  ⟨e.k * E (-alpha * (t - t0old)), e.v⟩

/-- Method `ExpDecaySampleFloat64.update(t, v)`.  `E` models `math.Exp` and
`u` models the fresh `rand.Float64()` draw of this call.  The result is `none`
exactly when a heap access would panic in Go (pop from an empty heap, or a
push past the backing slice's capacity). -/
def ExpDecaySampleFloat64.update (E : ℚ → ℚ) (u : ℚ) (s : ExpDecaySampleFloat64)
    (t v : ℚ) : Option ExpDecaySampleFloat64 := do
  let popped ←
    if s.values.length = s.reservoirSize then
      match heapPop s.values with
      | none => none
      | some (_, rest) => some rest
    else pure s.values
  let pushed ← heapPush s.reservoirSize popped ⟨E ((t - s.t0) * s.alpha) / u, v⟩
  if s.t1 < t then
    let rescaled ← pushed.foldlM
      (fun h e => heapPush s.reservoirSize h (rescaleEntry E s.alpha t s.t0 e)) []
    pure { s with count := s.count + 1, t0 := t, t1 := t + rescaleThreshold,
                  values := rescaled }
  else
    pure { s with count := s.count + 1, values := pushed }

/-- Method `ExpDecaySampleFloat64.Values`: the retained observations. -/
def ExpDecaySampleFloat64.Values (s : ExpDecaySampleFloat64) : List ℚ :=
  s.values.map (fun e => e.v)

/-- Method `ExpDecaySampleFloat64.Size`. -/
def ExpDecaySampleFloat64.Size (s : ExpDecaySampleFloat64) : Nat :=
  s.values.length

/-- Go struct `SampleFloat64Snapshot`: a frozen (count, values) pair. -/
structure SampleFloat64Snapshot where
  count : ℤ
  values : List ℚ
deriving DecidableEq, Repr

/-- Method `ExpDecaySampleFloat64.Snapshot`: copies the heap's values into a
fresh array together with the current count. -/
def ExpDecaySampleFloat64.Snapshot (s : ExpDecaySampleFloat64) : SampleFloat64Snapshot :=
  ⟨s.count, s.values.map (fun e => e.v)⟩

/-- Oracle-indexed operations against a live decaying reservoir: an update
carries its random draw `u`, its wall-clock time `t` and the observation `v`;
a clear carries its wall-clock time. -/
inductive ExpDecayOp
  | update (u t v : ℚ)
  | clear (t : ℚ)
deriving DecidableEq, Repr

/-- Well-formedness of an operation's random oracle: `rand.Float64` draws used
as divisors are strictly positive. -/
def ExpDecayOp.uPos : ExpDecayOp → Prop
  | .update u _ _ => 0 < u
  | .clear _ => True

instance (op : ExpDecayOp) : Decidable op.uPos := by
  cases op <;> simp [ExpDecayOp.uPos] <;> infer_instance

def expDecayStep (E : ℚ → ℚ) (s : ExpDecaySampleFloat64) (op : ExpDecayOp) :
    Option ExpDecaySampleFloat64 :=
  match op with
  | .update u t v => s.update E u t v
  | .clear t => some (s.Clear t)

def expDecayRun (E : ℚ → ℚ) (ops : List ExpDecayOp) (s : ExpDecaySampleFloat64) :
    Option ExpDecaySampleFloat64 :=
  ops.foldlM (expDecayStep E) s

/-! ### The uniform reservoir (Algorithm R) -/

/-- Go struct `UniformSampleFloat64`. -/
structure UniformSampleFloat64 where
  count : ℤ
  reservoirSize : Nat
  values : List ℚ
deriving DecidableEq, Repr

/-- Constructor `NewUniformSampleFloat64`. -/
def NewUniformSampleFloat64 (reservoirSize : Nat) : UniformSampleFloat64 :=
  ⟨0, reservoirSize, []⟩

/-- Method `UniformSampleFloat64.Clear`. -/
def UniformSampleFloat64.Clear (s : UniformSampleFloat64) : UniformSampleFloat64 :=
  { s with count := 0, values := [] }

/-- Method `UniformSampleFloat64.Update(v)`; `r` models the draw
`rand.Int63n(s.count)` made in the at-capacity branch. -/
def UniformSampleFloat64.Update (s : UniformSampleFloat64) (r : ℤ) (v : ℚ) :
    UniformSampleFloat64 :=
  if s.values.length < s.reservoirSize then
    { s with count := s.count + 1, values := s.values ++ [v] }
  else if r < (s.values.length : ℤ) then
    { s with count := s.count + 1, values := s.values.set r.toNat v }
  else
    { s with count := s.count + 1 }

/-- Method `UniformSampleFloat64.Snapshot`: copies the value slice. -/
def UniformSampleFloat64.Snapshot (s : UniformSampleFloat64) : SampleFloat64Snapshot :=
  ⟨s.count, s.values⟩

/-- Oracle-indexed operations against a live uniform reservoir. -/
inductive UniformOp
  | update (r : ℤ) (v : ℚ)
  | clear
deriving DecidableEq, Repr

def uniformStep (s : UniformSampleFloat64) (op : UniformOp) : UniformSampleFloat64 :=
  match op with
  | .update r v => s.Update r v
  | .clear => s.Clear

def uniformRun (ops : List UniformOp) (s : UniformSampleFloat64) : UniformSampleFloat64 :=
  ops.foldl uniformStep s

/-! ### Frozen snapshots panic on mutation; the histogram layer -/

/-- Result of a call that may end in a Go `panic`. -/
inductive PanicOr (α : Type)
  | panicked (msg : String)
  | ok (val : α)
deriving DecidableEq, Repr

/-- Method `SampleFloat64Snapshot.Clear`: always panics. -/
def SampleFloat64Snapshot.Clear (_ : SampleFloat64Snapshot) : PanicOr Unit :=
  .panicked ("Clear called on a SampleFloat64Snapshot")

/-- Method `SampleFloat64Snapshot.Update`: always panics. -/
def SampleFloat64Snapshot.Update (_ : SampleFloat64Snapshot) (_ : ℚ) : PanicOr Unit :=
  .panicked ("Update called on a SampleFloat64Snapshot")

/-- Go struct `HistogramSnapshotFloat64`: wraps a frozen sample snapshot. -/
structure HistogramSnapshotFloat64 where
  sample : SampleFloat64Snapshot
deriving DecidableEq, Repr

/-- Method `HistogramSnapshotFloat64.Clear`: always panics. -/
def HistogramSnapshotFloat64.Clear (_ : HistogramSnapshotFloat64) :
    PanicOr HistogramSnapshotFloat64 :=
  .panicked ("Clear called on a HistogramSnapshotFloat64")

/-- Method `HistogramSnapshotFloat64.Update`: always panics. -/
def HistogramSnapshotFloat64.Update (_ : HistogramSnapshotFloat64) (_ : ℚ) :
    PanicOr Unit :=
  .panicked ("Update called on a HistogramSnapshotFloat64")

/-- Method `StandardHistogramFloat64.Clear` over a decaying-reservoir-backed
histogram: snapshot the sample, clear it, return the frozen histogram. -/
def StandardHistogramClearExpDecay (s : ExpDecaySampleFloat64) (now : ℚ) :
    HistogramSnapshotFloat64 × ExpDecaySampleFloat64 :=
  (⟨s.Snapshot⟩, s.Clear now)

/-- Method `StandardHistogramFloat64.Clear` over a uniform-reservoir-backed
histogram. -/
def StandardHistogramClearUniform (s : UniformSampleFloat64) :
    HistogramSnapshotFloat64 × UniformSampleFloat64 :=
  (⟨s.Snapshot⟩, s.Clear)

/-! ### Anatomy of an update on the decaying reservoir -/

/-- Successful runs of `update` decompose into the eviction/push phase and the
optional rescale phase, exactly following the Go control flow. -/
theorem update_cases (E : ℚ → ℚ) (u t v : ℚ) (s s2 : ExpDecaySampleFloat64)
    (h : s.update E u t v = some s2) :
    ∃ popped pushed,
      ((s.values.length = s.reservoirSize ∧
          ∃ mn, heapPop s.values = some (mn, popped)) ∨
        (s.values.length ≠ s.reservoirSize ∧ popped = s.values)) ∧
      heapPush s.reservoirSize popped ⟨E ((t - s.t0) * s.alpha) / u, v⟩ = some pushed ∧
      ((s.t1 < t ∧ ∃ rescaled,
          pushed.foldlM (fun h e => heapPush s.reservoirSize h
            (rescaleEntry E s.alpha t s.t0 e)) [] = some rescaled ∧
          s2 = { s with count := s.count + 1, t0 := t, t1 := t + rescaleThreshold,
                        values := rescaled }) ∨
        (¬ s.t1 < t ∧ s2 = { s with count := s.count + 1, values := pushed })) := by
  unfold ExpDecaySampleFloat64.update at h
  simp only [bind, Option.bind] at h
  split at h
  · rename_i hlen
    cases hpop : heapPop s.values with
    | none =>
      rw [hpop] at h
      simp at h
    | some pr =>
      rw [hpop] at h
      obtain ⟨mn, rest⟩ := pr
      simp only [] at h
      cases hpush : heapPush s.reservoirSize rest ⟨E ((t - s.t0) * s.alpha) / u, v⟩ with
      | none => rw [hpush] at h; simp at h
      | some pushed =>
        rw [hpush] at h
        simp only [] at h
        refine ⟨rest, pushed, Or.inl ⟨hlen, mn, rfl⟩, hpush, ?_⟩
        split at h
        · rename_i ht
          cases hres : pushed.foldlM (fun hh e => heapPush s.reservoirSize hh
              (rescaleEntry E s.alpha t s.t0 e)) [] with
          | none =>
            rw [hres] at h
            simp at h
          | some rescaled =>
            rw [hres] at h
            simp only [pure, Option.some.injEq] at h
            exact Or.inl ⟨ht, rescaled, rfl, h.symm⟩
        · rename_i ht
          simp only [pure, Option.some.injEq] at h
          exact Or.inr ⟨ht, h.symm⟩
  · rename_i hlen
    simp only [pure, Option.bind] at h
    cases hpush : heapPush s.reservoirSize s.values ⟨E ((t - s.t0) * s.alpha) / u, v⟩ with
    | none => rw [hpush] at h; simp at h
    | some pushed =>
      rw [hpush] at h
      simp only [] at h
      refine ⟨s.values, pushed, Or.inr ⟨hlen, rfl⟩, hpush, ?_⟩
      split at h
      · rename_i ht
        cases hres : pushed.foldlM (fun hh e => heapPush s.reservoirSize hh
            (rescaleEntry E s.alpha t s.t0 e)) [] with
        | none =>
          rw [hres] at h
          simp at h
        | some rescaled =>
          rw [hres] at h
          simp only [pure, Option.some.injEq] at h
          exact Or.inl ⟨ht, rescaled, rfl, h.symm⟩
      · rename_i ht
        simp only [pure, Option.some.injEq] at h
        exact Or.inr ⟨ht, h.symm⟩

theorem isHeap_nil : IsHeap [] := by
  intro j hj
  simp at hj

/-- Folding `Push` over a list of transformed entries (the rescale loop)
succeeds whenever everything fits in the capacity, and produces a permutation
of the pushed entries while preserving the heap shape. -/
theorem foldlM_heapPush (cap : Nat) (f : ExpDecaySample → ExpDecaySample)
    (vs acc : List ExpDecaySample) (hlen : acc.length + vs.length ≤ cap) :
    ∃ h2, vs.foldlM (fun h e => heapPush cap h (f e)) acc = some h2 ∧
      h2.length = acc.length + vs.length ∧ h2.Perm (acc ++ vs.map f) ∧
      (IsHeap acc → IsHeap h2) := by
  induction vs generalizing acc with
  | nil =>
    exact ⟨acc, rfl, by simp, by simp, fun h => h⟩
  | cons e vs ih =>
    have hlt : acc.length < cap := by
      have : 0 < (e :: vs).length := by simp
      simp at hlen
      omega
    obtain ⟨h1, hh1⟩ := (heapPush_eq_some_iff cap acc (f e)).mpr hlt
    obtain ⟨hlen1, _⟩ := heapPush_length cap acc h1 (f e) hh1
    have hperm1 := heapPush_perm cap acc h1 (f e) hh1
    obtain ⟨h2, hh2, hlen2, hperm2, hheap2⟩ := ih h1 (by simp at hlen; omega)
    refine ⟨h2, ?_, by simp; omega, ?_, ?_⟩
    · rw [List.foldlM_cons, hh1]
      simpa using hh2
    · have p1 : (h1 ++ vs.map f).Perm ((f e :: acc) ++ vs.map f) :=
        hperm1.append_right _
      have p3 : (f e :: (acc ++ vs.map f)).Perm (acc ++ f e :: vs.map f) :=
        List.perm_middle.symm
      exact hperm2.trans (p1.trans p3)
    · intro hacc
      exact hheap2 (heapPush_isHeap cap acc h1 (f e) hacc hh1)

theorem update_count (E : ℚ → ℚ) (u t v : ℚ) (s s2 : ExpDecaySampleFloat64)
    (h : s.update E u t v = some s2) : s2.count = s.count + 1 := by
  obtain ⟨popped, pushed, _, _, hfin⟩ := update_cases E u t v s s2 h
  rcases hfin with ⟨_, _, _, rfl⟩ | ⟨_, rfl⟩ <;> rfl

theorem update_fixed (E : ℚ → ℚ) (u t v : ℚ) (s s2 : ExpDecaySampleFloat64)
    (h : s.update E u t v = some s2) :
    s2.alpha = s.alpha ∧ s2.reservoirSize = s.reservoirSize := by
  obtain ⟨popped, pushed, _, _, hfin⟩ := update_cases E u t v s s2 h
  rcases hfin with ⟨_, _, _, rfl⟩ | ⟨_, rfl⟩ <;> exact ⟨rfl, rfl⟩

theorem update_length (E : ℚ → ℚ) (u t v : ℚ) (s s2 : ExpDecaySampleFloat64)
    (h : s.update E u t v = some s2) :
    s2.values.length ≤ s.reservoirSize ∧ s2.values.length ≤ s.values.length + 1 := by
  obtain ⟨popped, pushed, hpop, hpush, hfin⟩ := update_cases E u t v s s2 h
  obtain ⟨hplen, hpcap⟩ := heapPush_length _ _ _ _ hpush
  have hpoplen : popped.length + 1 ≤ s.values.length + 1 := by
    rcases hpop with ⟨hlen, mn, hpop⟩ | ⟨_, rfl⟩
    · have := (heapPop_eq_some _ _ _ hpop).2.1
      omega
    · omega
  rcases hfin with ⟨_, rescaled, hres, rfl⟩ | ⟨_, rfl⟩
  · obtain ⟨h2, hh2, hlen2, _, _⟩ := foldlM_heapPush s.reservoirSize
      (rescaleEntry E s.alpha t s.t0) pushed [] (by simpa using hpcap)
    obtain rfl : rescaled = h2 := Option.some.inj (hres.symm.trans hh2)
    have hlen2n : rescaled.length = pushed.length := by simpa using hlen2
    simp only []
    omega
  · simp only []
    omega

theorem update_isHeap (E : ℚ → ℚ) (u t v : ℚ) (s s2 : ExpDecaySampleFloat64)
    (hh : IsHeap s.values) (h : s.update E u t v = some s2) : IsHeap s2.values := by
  obtain ⟨popped, pushed, hpop, hpush, hfin⟩ := update_cases E u t v s s2 h
  have hpopped : IsHeap popped := by
    rcases hpop with ⟨hlen, mn, hpop⟩ | ⟨_, rfl⟩
    · exact heapPop_isHeap _ _ _ hh hpop
    · exact hh
  have hpushed : IsHeap pushed := heapPush_isHeap _ _ _ _ hpopped hpush
  obtain ⟨_, hpcap⟩ := heapPush_length _ _ _ _ hpush
  rcases hfin with ⟨_, rescaled, hres, rfl⟩ | ⟨_, rfl⟩
  · obtain ⟨h2, hh2, _, _, hheap2⟩ := foldlM_heapPush s.reservoirSize
      (rescaleEntry E s.alpha t s.t0) pushed [] (by simpa using hpcap)
    obtain rfl : rescaled = h2 := Option.some.inj (hres.symm.trans hh2)
    exact hheap2 isHeap_nil
  · exact hpushed

theorem update_keys_pos (E : ℚ → ℚ) (u t v : ℚ) (s s2 : ExpDecaySampleFloat64)
    (hE : ∀ x, 0 < E x) (hu : 0 < u) (hpos : ∀ e ∈ s.values, 0 < e.k)
    (h : s.update E u t v = some s2) : ∀ e ∈ s2.values, 0 < e.k := by
  obtain ⟨popped, pushed, hpop, hpush, hfin⟩ := update_cases E u t v s s2 h
  have hpop_pos : ∀ e ∈ popped, 0 < e.k := by
    rcases hpop with ⟨hlen, mn, hpop⟩ | ⟨_, rfl⟩
    · intro e he
      have hperm := (heapPop_eq_some _ _ _ hpop).2.2
      exact hpos e (hperm.subset (List.mem_cons_of_mem mn he))
    · exact hpos
  have hpush_pos : ∀ e ∈ pushed, 0 < e.k := by
    have hperm := heapPush_perm _ _ _ _ hpush
    intro e he
    rcases List.mem_cons.mp (hperm.subset he) with rfl | hmem
    · exact div_pos (hE _) hu
    · exact hpop_pos e hmem
  obtain ⟨_, hpcap⟩ := heapPush_length _ _ _ _ hpush
  rcases hfin with ⟨_, rescaled, hres, rfl⟩ | ⟨_, rfl⟩
  · obtain ⟨h2, hh2, _, hperm2, _⟩ := foldlM_heapPush s.reservoirSize
      (rescaleEntry E s.alpha t s.t0) pushed [] (by simpa using hpcap)
    obtain rfl : rescaled = h2 := Option.some.inj (hres.symm.trans hh2)
    intro e he
    have hmem : e ∈ pushed.map (rescaleEntry E s.alpha t s.t0) := by
      simpa using hperm2.subset he
    obtain ⟨e0, he0, rfl⟩ := List.mem_map.mp hmem
    exact mul_pos (hpush_pos e0 he0) (hE _)
  · exact hpush_pos

theorem update_succeeds (E : ℚ → ℚ) (u t v : ℚ) (s : ExpDecaySampleFloat64)
    (hcap : 1 ≤ s.reservoirSize) (hsz : s.values.length ≤ s.reservoirSize) :
    ∃ s2, s.update E u t v = some s2 := by
  unfold ExpDecaySampleFloat64.update
  simp only [bind, Option.bind]
  split
  · rename_i hlen
    cases hpop : heapPop s.values with
    | none =>
      rw [heapPop_eq_none_iff] at hpop
      rw [hpop] at hlen
      simp at hlen
      omega
    | some pr =>
      obtain ⟨mn, rest⟩ := pr
      have hrest : rest.length = s.values.length - 1 := (heapPop_eq_some _ _ _ hpop).2.1
      have hlt : rest.length < s.reservoirSize := by omega
      obtain ⟨pushed, hpush⟩ := (heapPush_eq_some_iff s.reservoirSize rest
        ⟨E ((t - s.t0) * s.alpha) / u, v⟩).mpr hlt
      dsimp only
      rw [hpush]
      simp only []
      obtain ⟨hplen, hpcap⟩ := heapPush_length _ _ _ _ hpush
      split
      · obtain ⟨h2, hh2, _, _, _⟩ := foldlM_heapPush s.reservoirSize
          (rescaleEntry E s.alpha t s.t0) pushed [] (by simpa using hpcap)
        rw [hh2]
        exact ⟨_, rfl⟩
      · exact ⟨_, rfl⟩
  · rename_i hlen
    have hlt : s.values.length < s.reservoirSize := by omega
    obtain ⟨pushed, hpush⟩ := (heapPush_eq_some_iff s.reservoirSize s.values
      ⟨E ((t - s.t0) * s.alpha) / u, v⟩).mpr hlt
    simp only [pure, Option.bind]
    rw [hpush]
    simp only []
    obtain ⟨hplen, hpcap⟩ := heapPush_length _ _ _ _ hpush
    split
    · obtain ⟨h2, hh2, _, _, _⟩ := foldlM_heapPush s.reservoirSize
        (rescaleEntry E s.alpha t s.t0) pushed [] (by simpa using hpcap)
      rw [hh2]
      exact ⟨_, rfl⟩
    · exact ⟨_, rfl⟩

/-! ### Run-level invariants -/

/-- Reachability invariant of a live decaying reservoir: the heap shape holds,
all keys are strictly positive, at most `reservoirSize` entries are retained,
and the retained size never exceeds the running count. -/
def ExpInv (s : ExpDecaySampleFloat64) : Prop :=
  IsHeap s.values ∧ (∀ e ∈ s.values, 0 < e.k) ∧
  s.values.length ≤ s.reservoirSize ∧ (s.values.length : ℤ) ≤ s.count ∧ 0 ≤ s.count

theorem expDecayStep_inv (E : ℚ → ℚ) (hE : ∀ x, 0 < E x) (s s2 : ExpDecaySampleFloat64)
    (op : ExpDecayOp) (hop : op.uPos) (hinv : ExpInv s)
    (h : expDecayStep E s op = some s2) : ExpInv s2 := by
  obtain ⟨hheap, hpos, hlen, hcnt, hcnt0⟩ := hinv
  cases op with
  | update u t v =>
    have hu : 0 < u := hop
    have h2 : s.update E u t v = some s2 := h
    refine ⟨update_isHeap E u t v s s2 hheap h2,
      update_keys_pos E u t v s s2 hE hu hpos h2, ?_, ?_, ?_⟩
    · rw [(update_fixed E u t v s s2 h2).2]
      exact (update_length E u t v s s2 h2).1
    · have := (update_length E u t v s s2 h2).2
      rw [update_count E u t v s s2 h2]
      omega
    · rw [update_count E u t v s s2 h2]
      omega
  | clear t =>
    obtain rfl : s.Clear t = s2 := Option.some.inj h
    refine ⟨isHeap_nil, ?_, ?_, ?_, ?_⟩ <;>
      simp [ExpDecaySampleFloat64.Clear]

theorem expDecayRun_inv (E : ℚ → ℚ) (hE : ∀ x, 0 < E x) (ops : List ExpDecayOp)
    (hops : ∀ op ∈ ops, op.uPos) (s s2 : ExpDecaySampleFloat64)
    (hinv : ExpInv s) (h : expDecayRun E ops s = some s2) : ExpInv s2 := by
  induction ops generalizing s with
  | nil => exact (Option.some.inj h) ▸ hinv
  | cons op ops ih =>
    rw [expDecayRun, List.foldlM_cons] at h
    cases hstep : expDecayStep E s op with
    | none => rw [hstep] at h; simp at h
    | some s1 =>
      rw [hstep] at h
      exact ih (fun o ho => hops o (List.mem_cons_of_mem op ho)) s1
        (expDecayStep_inv E hE s s1 op (hops op (List.mem_cons_self op ops)) hinv hstep) h

/-- Invariant of the decaying reservoir used for bound-safety alone. -/
def ExpLenInv (s : ExpDecaySampleFloat64) : Prop :=
  s.values.length ≤ s.reservoirSize

theorem expDecayRun_succeeds (E : ℚ → ℚ) (ops : List ExpDecayOp)
    (s : ExpDecaySampleFloat64) (hcap : 1 ≤ s.reservoirSize) (hlen : ExpLenInv s) :
    ∃ s2, expDecayRun E ops s = some s2 := by
  induction ops generalizing s with
  | nil => exact ⟨s, rfl⟩
  | cons op ops ih =>
    cases op with
    | update u t v =>
      obtain ⟨s1, hs1⟩ := update_succeeds E u t v s hcap hlen
      obtain ⟨s2, hs2⟩ := ih s1 (by rw [(update_fixed E u t v s s1 hs1).2]; exact hcap)
        (by rw [ExpLenInv, (update_fixed E u t v s s1 hs1).2]
            exact (update_length E u t v s s1 hs1).1)
      refine ⟨s2, ?_⟩
      rw [expDecayRun, List.foldlM_cons]
      show (expDecayStep E s (ExpDecayOp.update u t v)) >>= _ = some s2
      rw [show expDecayStep E s (ExpDecayOp.update u t v) = s.update E u t v from rfl, hs1]
      exact hs2
    | clear t =>
      obtain ⟨s2, hs2⟩ := ih (s.Clear t) hcap (Nat.zero_le _)
      refine ⟨s2, ?_⟩
      rw [expDecayRun, List.foldlM_cons]
      show (expDecayStep E s (ExpDecayOp.clear t)) >>= _ = some s2
      rw [show expDecayStep E s (ExpDecayOp.clear t) = some (s.Clear t) from rfl]
      exact hs2

/-- Reachability invariant of a live uniform reservoir. -/
def UniInv (s : UniformSampleFloat64) : Prop :=
  s.values.length ≤ s.reservoirSize ∧ (s.values.length : ℤ) ≤ s.count ∧ 0 ≤ s.count

theorem uniformUpdate_count (s : UniformSampleFloat64) (r : ℤ) (v : ℚ) :
    (s.Update r v).count = s.count + 1 := by
  unfold UniformSampleFloat64.Update
  split
  · rfl
  · split <;> rfl

theorem uniformUpdate_length (s : UniformSampleFloat64) (r : ℤ) (v : ℚ) :
    (s.Update r v).values.length ≤ s.values.length + 1 ∧
    (s.values.length ≤ s.reservoirSize → (s.Update r v).values.length ≤ s.reservoirSize) := by
  unfold UniformSampleFloat64.Update
  split
  · rename_i hlt
    constructor
    · simp
    · intro _
      simp
      omega
  · split
    · constructor
      · simp
      · intro h
        simpa using h
    · exact ⟨Nat.le_succ _, fun h => h⟩

theorem uniformUpdate_reservoirSize (s : UniformSampleFloat64) (r : ℤ) (v : ℚ) :
    (s.Update r v).reservoirSize = s.reservoirSize := by
  unfold UniformSampleFloat64.Update
  split
  · rfl
  · split <;> rfl

theorem uniformStep_inv (s : UniformSampleFloat64) (op : UniformOp)
    (hinv : UniInv s) : UniInv (uniformStep s op) := by
  obtain ⟨hlen, hcnt, hcnt0⟩ := hinv
  cases op with
  | update r v =>
    refine ⟨?_, ?_, ?_⟩
    · rw [show uniformStep s (UniformOp.update r v) = s.Update r v from rfl,
        uniformUpdate_reservoirSize]
      exact (uniformUpdate_length s r v).2 hlen
    · have h1 := (uniformUpdate_length s r v).1
      rw [show uniformStep s (UniformOp.update r v) = s.Update r v from rfl,
        uniformUpdate_count]
      omega
    · rw [show uniformStep s (UniformOp.update r v) = s.Update r v from rfl,
        uniformUpdate_count]
      omega
  | clear =>
    exact ⟨by simp [uniformStep, UniformSampleFloat64.Clear],
      by simp [uniformStep, UniformSampleFloat64.Clear],
      by simp [uniformStep, UniformSampleFloat64.Clear]⟩

theorem uniformRun_inv (ops : List UniformOp) (s : UniformSampleFloat64)
    (hinv : UniInv s) : UniInv (uniformRun ops s) := by
  induction ops generalizing s with
  | nil => exact hinv
  | cons op ops ih =>
    rw [uniformRun, List.foldl_cons]
    exact ih (uniformStep s op) (uniformStep_inv s op hinv)

/-! ### Sequential fill of a uniform reservoir below capacity -/

/-- Push the observations `0, 1, ..., N-1` into a fresh uniform reservoir of
capacity `cap`; the random oracle is irrelevant below capacity. -/
def uniformFill (cap N : Nat) : UniformSampleFloat64 :=
  uniformRun ((List.range N).map (fun i : ℕ => UniformOp.update 0 (i : ℚ)))
    (NewUniformSampleFloat64 cap)

theorem uniformFill_values (cap N : Nat) (h : N ≤ cap) :
    (uniformFill cap N).values = (List.range N).map (fun i : ℕ => (i : ℚ)) ∧
    (uniformFill cap N).count = (N : ℤ) ∧
    (uniformFill cap N).reservoirSize = cap := by
  induction N with
  | zero => exact ⟨rfl, rfl, rfl⟩
  | succ n ih =>
    obtain ⟨ihv, ihc, ihr⟩ := ih (by omega)
    have hsplit : uniformFill cap (n + 1) = uniformStep (uniformFill cap n)
        (UniformOp.update 0 ((n : ℚ))) := by
      unfold uniformFill
      rw [List.range_succ, List.map_append, uniformRun, List.foldl_append]
      rfl
    have hlen : (uniformFill cap n).values.length < cap := by
      rw [ihv]
      simp
      omega
    rw [hsplit]
    show ((uniformFill cap n).Update 0 (n : ℚ)).values = _ ∧
      ((uniformFill cap n).Update 0 (n : ℚ)).count = _ ∧
      ((uniformFill cap n).Update 0 (n : ℚ)).reservoirSize = _
    unfold UniformSampleFloat64.Update
    rw [ihr]
    split
    · refine ⟨?_, ?_, ?_⟩
      · show (uniformFill cap n).values ++ [(n : ℚ)] = _
        rw [ihv, List.range_succ, List.map_append]
        rfl
      · show (uniformFill cap n).count + 1 = _
        rw [ihc]
        push_cast
        ring
      · rfl
    · rename_i hge
      exact absurd hlen hge

/-! ### Spec-side percentile definition (refinement target for C1) -/

/-- Follows the specification text verbatim (not the code): sort ascending,
set `pos = p * (n + 1)`; if `pos < 1` take the smallest value, if `pos ≥ n`
take the largest, otherwise interpolate between the values at the 1-indexed
positions `⌊pos⌋` and `⌊pos⌋ + 1`, weighted by the fractional part of `pos`. -/
def specPercentile (sorted : List ℚ) (n : Nat) (p : ℚ) : ℚ :=
  if p * ((n : ℚ) + 1) < 1 then sorted.getD 0 0
  else if (n : ℚ) ≤ p * ((n : ℚ) + 1) then sorted.getD (n - 1) 0
  else
    sorted.getD ((⌊p * ((n : ℚ) + 1)⌋).toNat - 1) 0 +
      (p * ((n : ℚ) + 1) - ((⌊p * ((n : ℚ) + 1)⌋ : ℤ) : ℚ)) *
      (sorted.getD (⌊p * ((n : ℚ) + 1)⌋).toNat 0 -
        sorted.getD ((⌊p * ((n : ℚ) + 1)⌋).toNat - 1) 0)

theorem goTrunc_of_nonneg (q : ℚ) (h : 0 ≤ q) : goTrunc q = ⌊q⌋ := by
  unfold goTrunc
  rw [if_pos h]

/-! ### Claim theorems -/

/-- C1: for every non-empty collection of values, `Percentiles` sorts the
values ascending once (the sorted array is a permutation of the input, sorted
by `≤`), answers each requested `p` of the list in input order from that one
sorted array by the rule `pos = p·(n+1)`, smallest value when `pos < 1`,
largest when `pos ≥ n`, and otherwise linear interpolation between the
1-indexed positions `⌊pos⌋` and `⌊pos⌋+1` weighted by the fractional part of
`pos`; and `Percentile` is the one-element specialisation. -/
theorem percentiles_follow_spec (values ps : List ℚ) (hne : values ≠ []) :
    (sortSort values).Perm values ∧ List.Sorted (· ≤ ·) (sortSort values) ∧
    SampleFloat64Percentiles values ps =
      ps.map (specPercentile (sortSort values) values.length) ∧
    (∀ p, SampleFloat64Percentile values p =
      specPercentile (sortSort values) values.length p) := by
  have hlen : 0 < values.length := List.length_pos.mpr hne
  have hmap : ∀ qs : List ℚ, SampleFloat64Percentiles values qs =
      qs.map (specPercentile (sortSort values) values.length) := by
    intro qs
    unfold SampleFloat64Percentiles
    rw [if_pos hlen]
    refine congrArg (fun f => qs.map f) (funext (fun p => ?_))
    unfold specPercentile
    by_cases h1 : p * ((values.length : ℚ) + 1) < 1
    · rw [if_pos h1, if_pos h1]
    · rw [if_neg h1, if_neg h1]
      by_cases h2 : (values.length : ℚ) ≤ p * ((values.length : ℚ) + 1)
      · rw [if_pos h2, if_pos h2]
      · rw [if_neg h2, if_neg h2]
        have hge1 : (1 : ℚ) ≤ p * ((values.length : ℚ) + 1) := not_lt.mp h1
        have h0le : (0 : ℚ) ≤ p * ((values.length : ℚ) + 1) :=
          le_trans zero_le_one hge1
        have hfl : 1 ≤ ⌊p * ((values.length : ℚ) + 1)⌋ :=
          Int.le_floor.mpr (by exact_mod_cast hge1)
        rw [goTrunc_of_nonneg _ h0le]
        have htn : (⌊p * ((values.length : ℚ) + 1)⌋ - 1).toNat =
            (⌊p * ((values.length : ℚ) + 1)⌋).toNat - 1 := by omega
        rw [htn]
  refine ⟨List.perm_insertionSort _ values, List.sorted_insertionSort _ values,
    hmap ps, fun p => ?_⟩
  unfold SampleFloat64Percentile
  rw [hmap [p]]
  rfl

/-- Witness for C1 at the concrete input `[3, 1, 2]` with `p = 1/2`. -/
theorem percentiles_follow_spec_witness :
    ([3, 1, 2] : List ℚ) ≠ [] ∧
    SampleFloat64Percentiles [3, 1, 2] [1/2, 1/4] =
      [1/2, 1/4].map (specPercentile (sortSort [3, 1, 2]) 3) :=
  ⟨by decide, (percentiles_follow_spec [3, 1, 2] [1/2, 1/4] (by decide)).2.2.1⟩

/-- C2: every successful `Update(v)` at time `t` on the decaying reservoir
increments the count; the new entry's key is `exp(alpha·elapsed)/u` for the
fresh draw `u`; when the heap is at capacity the minimum-key entry is popped
before the push; and when `t` exceeds `t1` the heap is rebuilt with `t0 = t`,
`t1 = t0 + rescaleThreshold`, every extracted entry re-inserted with its key
multiplied by `exp(−alpha·(new t0 − old t0))`. -/
theorem expDecay_update_spec (E : ℚ → ℚ) (u t v : ℚ) (s s2 : ExpDecaySampleFloat64)
    (hheap : IsHeap s.values) (h : s.update E u t v = some s2) :
    s2.count = s.count + 1 ∧
    ∃ mid : List ExpDecaySample,
      (if s.values.length = s.reservoirSize then
        ∃ mn rest, heapPop s.values = some (mn, rest) ∧ (∀ e ∈ s.values, mn.k ≤ e.k) ∧
          mid.Perm (⟨E (s.alpha * (t - s.t0)) / u, v⟩ :: rest)
      else mid.Perm (⟨E (s.alpha * (t - s.t0)) / u, v⟩ :: s.values)) ∧
      (if s.t1 < t then
        s2.t0 = t ∧ s2.t1 = t + rescaleThreshold ∧
          s2.values.Perm (mid.map (fun e => ⟨e.k * E (-s.alpha * (t - s.t0)), e.v⟩))
      else s2.t0 = s.t0 ∧ s2.t1 = s.t1 ∧ s2.values = mid) := by
  obtain ⟨popped, pushed, hpop, hpush, hfin⟩ := update_cases E u t v s s2 h
  have hentry : (⟨E (s.alpha * (t - s.t0)) / u, v⟩ : ExpDecaySample) =
      ⟨E ((t - s.t0) * s.alpha) / u, v⟩ := by
    rw [mul_comm]
  refine ⟨update_count E u t v s s2 h, pushed, ?_, ?_⟩
  · rcases hpop with ⟨hlen, mn, hpopped⟩ | ⟨hlen, rfl⟩
    · rw [if_pos hlen]
      exact ⟨mn, popped, hpopped, heapPop_min s.values mn popped hheap hpopped,
        hentry ▸ heapPush_perm _ _ _ _ hpush⟩
    · rw [if_neg hlen]
      exact hentry ▸ heapPush_perm _ _ _ _ hpush
  · obtain ⟨_, hpcap⟩ := heapPush_length _ _ _ _ hpush
    rcases hfin with ⟨ht, rescaled, hres, rfl⟩ | ⟨ht, rfl⟩
    · rw [if_pos ht]
      obtain ⟨h2, hh2, _, hperm2, _⟩ := foldlM_heapPush s.reservoirSize
        (rescaleEntry E s.alpha t s.t0) pushed [] (by simpa using hpcap)
      obtain rfl : rescaled = h2 := Option.some.inj (hres.symm.trans hh2)
      refine ⟨rfl, rfl, ?_⟩
      have hp := hperm2
      rw [List.nil_append] at hp
      exact hp
    · rw [if_neg ht]
      exact ⟨rfl, rfl, rfl⟩

/-- Witness for C2: a single update on a fresh capacity-1 reservoir. -/
theorem expDecay_update_spec_eval :
    (NewExpDecaySampleFloat64 1 1 0).update (fun _ => 1) (1/2) 10 5 =
      some ⟨1, 1, 1, 0, 3600, [⟨2, 5⟩]⟩ := by
  norm_num [ExpDecaySampleFloat64.update, NewExpDecaySampleFloat64, rescaleThreshold,
    heapPush, heapPop, hup, hupGo, hdown, hdownGo, hkey, hswap, childSel, dEntry,
    rescaleEntry]

theorem expDecay_update_spec_witness :
    IsHeap (NewExpDecaySampleFloat64 1 1 0).values ∧
    (NewExpDecaySampleFloat64 1 1 0).update (fun _ => 1) (1/2) 10 5 =
      some ⟨1, 1, 1, 0, 3600, [⟨2, 5⟩]⟩ ∧
    (⟨1, 1, 1, 0, 3600, [⟨2, 5⟩]⟩ : ExpDecaySampleFloat64).count =
      (NewExpDecaySampleFloat64 1 1 0).count + 1 :=
  ⟨by decide, expDecay_update_spec_eval,
    (expDecay_update_spec (fun _ => 1) (1/2) 10 5 (NewExpDecaySampleFloat64 1 1 0)
      ⟨1, 1, 1, 0, 3600, [⟨2, 5⟩]⟩ (by decide) expDecay_update_spec_eval).1⟩

/-- C3: `Clear()` on a live-reservoir-backed histogram returns a frozen
snapshot whose count, values and hence every statistic (Max, Mean, Min, Sum,
Variance, StdDev, Percentile) equal those of the live instance immediately
before the call, and the live reservoir afterwards has count 0, size 0, and —
for the decaying kind — its decay clock window reset to `[now, now +
rescaleThreshold)`. -/
theorem histogram_clear_roundTrip (tc : ℚ) (se : ExpDecaySampleFloat64)
    (su : UniformSampleFloat64) :
    ((StandardHistogramClearExpDecay se tc).1.sample.count = se.count ∧
      (StandardHistogramClearExpDecay se tc).1.sample.values = se.Values ∧
      SampleFloat64Max (StandardHistogramClearExpDecay se tc).1.sample.values =
        SampleFloat64Max se.Values ∧
      SampleFloat64Mean (StandardHistogramClearExpDecay se tc).1.sample.values =
        SampleFloat64Mean se.Values ∧
      SampleFloat64Min (StandardHistogramClearExpDecay se tc).1.sample.values =
        SampleFloat64Min se.Values ∧
      SampleFloat64Sum (StandardHistogramClearExpDecay se tc).1.sample.values =
        SampleFloat64Sum se.Values ∧
      SampleFloat64Variance (StandardHistogramClearExpDecay se tc).1.sample.values =
        SampleFloat64Variance se.Values ∧
      (∀ sq, SampleFloat64StdDev sq (StandardHistogramClearExpDecay se tc).1.sample.values =
        SampleFloat64StdDev sq se.Values) ∧
      (∀ p, SampleFloat64Percentile (StandardHistogramClearExpDecay se tc).1.sample.values p =
        SampleFloat64Percentile se.Values p) ∧
      (StandardHistogramClearExpDecay se tc).2.count = 0 ∧
      (StandardHistogramClearExpDecay se tc).2.Size = 0 ∧
      (StandardHistogramClearExpDecay se tc).2.t0 = tc ∧
      (StandardHistogramClearExpDecay se tc).2.t1 = tc + rescaleThreshold) ∧
    ((StandardHistogramClearUniform su).1.sample.count = su.count ∧
      (StandardHistogramClearUniform su).1.sample.values = su.values ∧
      SampleFloat64Max (StandardHistogramClearUniform su).1.sample.values =
        SampleFloat64Max su.values ∧
      SampleFloat64Mean (StandardHistogramClearUniform su).1.sample.values =
        SampleFloat64Mean su.values ∧
      SampleFloat64Min (StandardHistogramClearUniform su).1.sample.values =
        SampleFloat64Min su.values ∧
      SampleFloat64Sum (StandardHistogramClearUniform su).1.sample.values =
        SampleFloat64Sum su.values ∧
      SampleFloat64Variance (StandardHistogramClearUniform su).1.sample.values =
        SampleFloat64Variance su.values ∧
      (∀ sq, SampleFloat64StdDev sq (StandardHistogramClearUniform su).1.sample.values =
        SampleFloat64StdDev sq su.values) ∧
      (∀ p, SampleFloat64Percentile (StandardHistogramClearUniform su).1.sample.values p =
        SampleFloat64Percentile su.values p) ∧
      (StandardHistogramClearUniform su).2.count = 0 ∧
      (StandardHistogramClearUniform su).2.values.length = 0) := by
  exact ⟨⟨rfl, rfl, rfl, rfl, rfl, rfl, rfl, fun sq => rfl, fun p => rfl,
      rfl, rfl, rfl, rfl⟩,
    ⟨rfl, rfl, rfl, rfl, rfl, rfl, rfl, fun sq => rfl, fun p => rfl, rfl, rfl⟩⟩

/-- C4: `Update(v)` on the uniform reservoir increments the count; below
capacity `v` is appended unconditionally; at capacity (for a well-formed state,
whose retained size never exceeds the capacity) the drawn index `r` overwrites
slot `r` when `r < capacity` and `v` is discarded when `r ≥ capacity`; and
filling a fresh reservoir with `0..N-1` for `N ≤ capacity` retains exactly
`0..N-1`. -/
theorem uniform_update_spec :
    (∀ (s : UniformSampleFloat64) (r : ℤ) (v : ℚ),
      (s.Update r v).count = s.count + 1 ∧
      (s.values.length < s.reservoirSize → (s.Update r v).values = s.values ++ [v]) ∧
      (s.values.length ≤ s.reservoirSize → ¬ s.values.length < s.reservoirSize →
        ((r < (s.reservoirSize : ℤ) → (s.Update r v).values = s.values.set r.toNat v) ∧
          ((s.reservoirSize : ℤ) ≤ r → (s.Update r v).values = s.values)))) ∧
    (∀ cap N : ℕ, N ≤ cap →
      (uniformFill cap N).values = (List.range N).map (fun i : ℕ => (i : ℚ)) ∧
      (uniformFill cap N).count = (N : ℤ)) := by
  constructor
  · intro s r v
    refine ⟨uniformUpdate_count s r v, ?_, ?_⟩
    · intro hlt
      unfold UniformSampleFloat64.Update
      rw [if_pos hlt]
    · intro hle hnlt
      have hcap : s.values.length = s.reservoirSize := by omega
      constructor
      · intro hr
        unfold UniformSampleFloat64.Update
        rw [if_neg hnlt, if_pos (by rw [hcap]; exact hr)]
      · intro hr
        unfold UniformSampleFloat64.Update
        rw [if_neg hnlt, if_neg (by rw [hcap]; omega)]
  · intro cap N h
    exact ⟨(uniformFill_values cap N h).1, (uniformFill_values cap N h).2.1⟩

/-- Witness for C4: overwrite of slot 1 at capacity, and a below-capacity
fill with `0, 1`. -/
theorem uniform_update_spec_witness :
    ((⟨2, 2, [5, 6]⟩ : UniformSampleFloat64).Update 1 9).values = [5, 9] ∧
    (uniformFill 3 2).values = [0, 1] := by
  constructor
  · have h := ((uniform_update_spec.1 ⟨2, 2, [5, 6]⟩ 1 9).2.2 (by decide)
      (by decide)).1 (by decide)
    rw [h]
    rfl
  · have h := (uniform_update_spec.2 3 2 (by decide)).1
    rw [h]
    rfl

/-- C7: on an empty collection every statistic — Min, Max, Mean, Sum,
Variance, and StdDev whenever the square root fixes 0 — returns 0, and
`Percentile`/`Percentiles` return 0 for every requested `p`; all of them are
total functions of the empty list (no error, and in the exact rational model
no NaN or infinity exists to be produced). -/
theorem empty_stats_zero :
    SampleFloat64Max [] = 0 ∧ SampleFloat64Min [] = 0 ∧ SampleFloat64Mean [] = 0 ∧
    SampleFloat64Sum [] = 0 ∧ SampleFloat64Variance [] = 0 ∧
    (∀ sq : ℚ → ℚ, sq 0 = 0 → SampleFloat64StdDev sq [] = 0) ∧
    (∀ p, SampleFloat64Percentile [] p = 0) ∧
    (∀ ps, SampleFloat64Percentiles [] ps = ps.map (fun _ => 0)) :=
  ⟨rfl, rfl, rfl, rfl, rfl,
    fun sq h => by rw [SampleFloat64StdDev, show SampleFloat64Variance [] = 0 from rfl, h],
    fun p => rfl, fun ps => rfl⟩

/-- Witness for C7: the StdDev clause applied to a concrete square root
function fixing 0. -/
theorem empty_stats_zero_witness :
    (fun x : ℚ => x) 0 = 0 ∧ SampleFloat64StdDev (fun x : ℚ => x) [] = 0 :=
  ⟨rfl, empty_stats_zero.2.2.2.2.2.1 (fun x => x) rfl⟩

/-- C8: `Update` and `Clear` on a frozen snapshot (sample or histogram) always
panic with the documented message and never return an ordinary value. -/
theorem snapshot_mutation_panics :
    (∀ s : SampleFloat64Snapshot,
      s.Clear = PanicOr.panicked ("Clear called on a SampleFloat64Snapshot") ∧
      (∀ v, s.Update v = PanicOr.panicked ("Update called on a SampleFloat64Snapshot")) ∧
      (∀ x, s.Clear ≠ PanicOr.ok x) ∧ (∀ v x, s.Update v ≠ PanicOr.ok x)) ∧
    (∀ hs : HistogramSnapshotFloat64,
      hs.Clear = PanicOr.panicked ("Clear called on a HistogramSnapshotFloat64") ∧
      (∀ v, hs.Update v = PanicOr.panicked ("Update called on a HistogramSnapshotFloat64")) ∧
      (∀ x, hs.Clear ≠ PanicOr.ok x) ∧ (∀ v x, hs.Update v ≠ PanicOr.ok x)) :=
  ⟨fun s => ⟨rfl, fun v => rfl, fun x h => by simp [SampleFloat64Snapshot.Clear] at h,
      fun v x h => by simp [SampleFloat64Snapshot.Update] at h⟩,
    fun hs => ⟨rfl, fun v => rfl, fun x h => by simp [HistogramSnapshotFloat64.Clear] at h,
      fun v x h => by simp [HistogramSnapshotFloat64.Update] at h⟩⟩

/-- C5: after every successful sequence of updates and clears on a fresh
decaying reservoir (with positive `exp` and random draws in `(0,1)`), every
stored heap key is strictly positive (in the exact rational model every value
is finite), the min-heap shape holds at every node, and the heap root holds
the minimum key. -/
theorem expDecay_heap_invariant (E : ℚ → ℚ) (hE : ∀ x, 0 < E x)
    (ops : List ExpDecayOp) (hops : ∀ op ∈ ops, op.uPos)
    (cap : ℕ) (alpha tc : ℚ) (s2 : ExpDecaySampleFloat64)
    (h : expDecayRun E ops (NewExpDecaySampleFloat64 cap alpha tc) = some s2) :
    (∀ e ∈ s2.values, 0 < e.k) ∧ IsHeap s2.values ∧
    (∀ e ∈ s2.values, hkey s2.values 0 ≤ e.k) := by
  have hinv0 : ExpInv (NewExpDecaySampleFloat64 cap alpha tc) := by
    refine ⟨isHeap_nil, ?_, ?_, ?_, ?_⟩ <;> simp [NewExpDecaySampleFloat64]
  obtain ⟨hheap, hpos, _, _, _⟩ := expDecayRun_inv E hE ops hops _ s2 hinv0 h
  refine ⟨hpos, hheap, fun e he => ?_⟩
  obtain ⟨i, hi, hgi⟩ := (mem_iff_getD s2.values e dEntry).mp he
  have hroot := isHeap_root_min s2.values hheap i hi
  unfold hkey at hroot ⊢
  rw [hgi] at hroot
  exact hroot

/-- Concrete three-operation run of the decaying reservoir, crossing a clear. -/
theorem expDecay_run_eval1 :
    expDecayRun (fun _ => 1) [ExpDecayOp.update (1/2) 1 7, ExpDecayOp.clear 2,
      ExpDecayOp.update (1/3) 3 4] (NewExpDecaySampleFloat64 2 1 0) =
    some ⟨1, 1, 2, 2, 3602, [⟨3, 4⟩]⟩ := by
  norm_num [expDecayRun, expDecayStep, ExpDecaySampleFloat64.update,
    ExpDecaySampleFloat64.Clear, NewExpDecaySampleFloat64, rescaleThreshold, heapPush,
    heapPop, hup, hupGo, hdown, hdownGo, hkey, hswap, childSel, dEntry, rescaleEntry,
    List.foldlM]

/-- Witness for C5: the concrete run of `expDecay_run_eval1`. -/
theorem expDecay_heap_invariant_witness :
    (∀ _x : ℚ, 0 < (1 : ℚ)) ∧
    (∀ op ∈ [ExpDecayOp.update (1/2) 1 7, ExpDecayOp.clear 2,
        ExpDecayOp.update (1/3) 3 4], op.uPos) ∧
    ((∀ e ∈ (⟨1, 1, 2, 2, 3602, [⟨3, 4⟩]⟩ : ExpDecaySampleFloat64).values, 0 < e.k) ∧
      IsHeap (⟨1, 1, 2, 2, 3602, [⟨3, 4⟩]⟩ : ExpDecaySampleFloat64).values ∧
      (∀ e ∈ (⟨1, 1, 2, 2, 3602, [⟨3, 4⟩]⟩ : ExpDecaySampleFloat64).values,
        hkey (⟨1, 1, 2, 2, 3602, [⟨3, 4⟩]⟩ : ExpDecaySampleFloat64).values 0 ≤ e.k)) :=
  ⟨fun _ => one_pos, by norm_num [ExpDecayOp.uPos],
    expDecay_heap_invariant (fun _ => 1) (fun _ => one_pos) _
      (by norm_num [ExpDecayOp.uPos]) 2 1 0 _ expDecay_run_eval1⟩

/-- Size/count invariant of a decaying reservoir, independent of randomness
assumptions. -/
def ExpSizeInv (s : ExpDecaySampleFloat64) : Prop :=
  s.values.length ≤ s.reservoirSize ∧ (s.values.length : ℤ) ≤ s.count ∧ 0 ≤ s.count

theorem expDecayStep_sizeInv (E : ℚ → ℚ) (s s2 : ExpDecaySampleFloat64)
    (op : ExpDecayOp) (hinv : ExpSizeInv s) (h : expDecayStep E s op = some s2) :
    ExpSizeInv s2 ∧ s2.reservoirSize = s.reservoirSize := by
  obtain ⟨h1, h2, h3⟩ := hinv
  cases op with
  | update u t v =>
    have hu : s.update E u t v = some s2 := h
    obtain ⟨hl1, hl2⟩ := update_length E u t v s s2 hu
    have hc := update_count E u t v s s2 hu
    have hr := (update_fixed E u t v s s2 hu).2
    refine ⟨⟨?_, ?_, ?_⟩, hr⟩
    · rw [hr]
      exact hl1
    · rw [hc]
      omega
    · rw [hc]
      omega
  | clear t =>
    obtain rfl : s.Clear t = s2 := Option.some.inj h
    exact ⟨⟨Nat.zero_le _, by simp [ExpDecaySampleFloat64.Clear],
      by simp [ExpDecaySampleFloat64.Clear]⟩, rfl⟩

theorem expDecayRun_sizeInv (E : ℚ → ℚ) (ops : List ExpDecayOp)
    (s s2 : ExpDecaySampleFloat64) (hinv : ExpSizeInv s)
    (h : expDecayRun E ops s = some s2) :
    ExpSizeInv s2 ∧ s2.reservoirSize = s.reservoirSize := by
  induction ops generalizing s with
  | nil => exact (Option.some.inj h) ▸ ⟨hinv, rfl⟩
  | cons op ops ih =>
    rw [expDecayRun, List.foldlM_cons] at h
    cases hstep : expDecayStep E s op with
    | none => rw [hstep] at h; simp at h
    | some s1 =>
      rw [hstep] at h
      obtain ⟨hinv1, hr1⟩ := expDecayStep_sizeInv E s s1 op hinv hstep
      obtain ⟨hinv2, hr2⟩ := ih s1 hinv1 h
      exact ⟨hinv2, hr2.trans hr1⟩

theorem uniformRun_reservoirSize (ops : List UniformOp) (s : UniformSampleFloat64) :
    (uniformRun ops s).reservoirSize = s.reservoirSize := by
  induction ops generalizing s with
  | nil => rfl
  | cons op ops ih =>
    rw [uniformRun, List.foldl_cons]
    refine (ih (uniformStep s op)).trans ?_
    cases op with
    | update r v => exact uniformUpdate_reservoirSize s r v
    | clear => rfl

/-- C6: for both live reservoirs, the retained size always satisfies
`0 ≤ size ≤ capacity` along any run from a fresh instance, the count dominates
the size and stays non-negative, every (successful) `Update` increments the
count by exactly one, and only `Clear` resets size and count to zero. -/
theorem reservoir_size_count_invariants :
    (∀ (cap : ℕ) (ops : List UniformOp),
      (uniformRun ops (NewUniformSampleFloat64 cap)).values.length ≤ cap ∧
      ((uniformRun ops (NewUniformSampleFloat64 cap)).values.length : ℤ) ≤
        (uniformRun ops (NewUniformSampleFloat64 cap)).count ∧
      0 ≤ (uniformRun ops (NewUniformSampleFloat64 cap)).count) ∧
    (∀ (s : UniformSampleFloat64) (r : ℤ) (v : ℚ), (s.Update r v).count = s.count + 1) ∧
    (∀ s : UniformSampleFloat64, s.Clear.count = 0 ∧ s.Clear.values.length = 0) ∧
    (∀ (E : ℚ → ℚ) (cap : ℕ) (alpha tc : ℚ) (ops : List ExpDecayOp)
      (s2 : ExpDecaySampleFloat64),
      expDecayRun E ops (NewExpDecaySampleFloat64 cap alpha tc) = some s2 →
      s2.values.length ≤ cap ∧ (s2.values.length : ℤ) ≤ s2.count ∧ 0 ≤ s2.count) ∧
    (∀ (E : ℚ → ℚ) (u t v : ℚ) (s s2 : ExpDecaySampleFloat64),
      s.update E u t v = some s2 → s2.count = s.count + 1) ∧
    (∀ (t : ℚ) (s : ExpDecaySampleFloat64),
      (s.Clear t).count = 0 ∧ (s.Clear t).values.length = 0) := by
  refine ⟨?_, ?_, ?_, ?_, ?_, ?_⟩
  · intro cap ops
    have hinv := uniformRun_inv ops (NewUniformSampleFloat64 cap)
      ⟨Nat.zero_le _, by simp [NewUniformSampleFloat64], by simp [NewUniformSampleFloat64]⟩
    have hrs : (uniformRun ops (NewUniformSampleFloat64 cap)).reservoirSize = cap :=
      uniformRun_reservoirSize ops (NewUniformSampleFloat64 cap)
    exact ⟨hinv.1.trans (le_of_eq hrs), hinv.2.1, hinv.2.2⟩
  · exact fun s r v => uniformUpdate_count s r v
  · exact fun s => ⟨rfl, rfl⟩
  · intro E cap alpha tc ops s2 h
    have hinv := expDecayRun_sizeInv E ops _ s2
      ⟨Nat.zero_le _, by simp [NewExpDecaySampleFloat64], by simp [NewExpDecaySampleFloat64]⟩ h
    have hrs : s2.reservoirSize = cap := hinv.2
    exact ⟨hinv.1.1.trans (le_of_eq hrs), hinv.1.2.1, hinv.1.2.2⟩
  · exact fun E u t v s s2 h => update_count E u t v s s2 h
  · exact fun t s => ⟨rfl, rfl⟩

/-- Concrete run of a capacity-1 decaying reservoir with three updates. -/
theorem expDecay_run_eval2 :
    expDecayRun (fun _ => 1) [ExpDecayOp.update (1/2) 1 7, ExpDecayOp.update (1/3) 2 4,
      ExpDecayOp.update 1 3 9] (NewExpDecaySampleFloat64 1 1 0) =
    some ⟨1, 3, 1, 0, 3600, [⟨1, 9⟩]⟩ := by
  norm_num [expDecayRun, expDecayStep, ExpDecaySampleFloat64.update,
    ExpDecaySampleFloat64.Clear, NewExpDecaySampleFloat64, rescaleThreshold, heapPush,
    heapPop, hup, hupGo, hdown, hdownGo, hkey, hswap, childSel, dEntry, rescaleEntry,
    List.foldlM]

/-- Witness for C6 at concrete runs on both reservoirs. -/
theorem reservoir_size_count_invariants_witness :
    ((uniformRun [UniformOp.update 0 5, UniformOp.update 0 6, UniformOp.update 1 9]
        (NewUniformSampleFloat64 2)).values.length ≤ 2 ∧
      ((uniformRun [UniformOp.update 0 5, UniformOp.update 0 6, UniformOp.update 1 9]
        (NewUniformSampleFloat64 2)).values.length : ℤ) ≤
        (uniformRun [UniformOp.update 0 5, UniformOp.update 0 6, UniformOp.update 1 9]
        (NewUniformSampleFloat64 2)).count ∧
      0 ≤ (uniformRun [UniformOp.update 0 5, UniformOp.update 0 6, UniformOp.update 1 9]
        (NewUniformSampleFloat64 2)).count) ∧
    ((⟨1, 3, 1, 0, 3600, [⟨1, 9⟩]⟩ : ExpDecaySampleFloat64).values.length ≤ 1 ∧
      ((⟨1, 3, 1, 0, 3600, [⟨1, 9⟩]⟩ : ExpDecaySampleFloat64).values.length : ℤ) ≤
        (⟨1, 3, 1, 0, 3600, [⟨1, 9⟩]⟩ : ExpDecaySampleFloat64).count ∧
      0 ≤ (⟨1, 3, 1, 0, 3600, [⟨1, 9⟩]⟩ : ExpDecaySampleFloat64).count) :=
  ⟨reservoir_size_count_invariants.1 2
      [UniformOp.update 0 5, UniformOp.update 0 6, UniformOp.update 1 9],
    reservoir_size_count_invariants.2.2.2.1 (fun _ => 1) 1 1 0
      [ExpDecayOp.update (1/2) 1 7, ExpDecayOp.update (1/3) 2 4, ExpDecayOp.update 1 3 9]
      ⟨1, 3, 1, 0, 3600, [⟨1, 9⟩]⟩ expDecay_run_eval2⟩

/-- C10: with capacity at least 1, no heap access of any run of operations can
go out of bounds — every run returns a state (Pop fires only on a non-empty
heap, and every Push stays within the backing slice's capacity, which is what
`some` means in this model); and with capacity 0 the very first `Update` pops
from the empty heap, the modelled panic. -/
theorem expDecay_bound_safety (E : ℚ → ℚ) (ops : List ExpDecayOp) (cap : ℕ)
    (alpha tc : ℚ) (hcap : 1 ≤ cap) :
    (∃ s2, expDecayRun E ops (NewExpDecaySampleFloat64 cap alpha tc) = some s2) ∧
    (∀ u t v, (NewExpDecaySampleFloat64 0 alpha tc).update E u t v = none) := by
  constructor
  · exact expDecayRun_succeeds E ops _ hcap (Nat.zero_le _)
  · intro u t v
    rfl

/-- Witness for C10 at capacity 1 and a single update. -/
theorem expDecay_bound_safety_witness :
    1 ≤ 1 ∧
    ((∃ s2, expDecayRun (fun _ => 1) [ExpDecayOp.update 1 1 1]
        (NewExpDecaySampleFloat64 1 1 0) = some s2) ∧
      (∀ u t v, (NewExpDecaySampleFloat64 0 1 0).update (fun _ => 1) u t v = none)) :=
  ⟨le_refl 1, expDecay_bound_safety (fun _ => 1) [ExpDecayOp.update 1 1 1] 1 1 0 (le_refl 1)⟩

/-- Witness for C8 at a concrete frozen snapshot. -/
theorem snapshot_mutation_panics_witness :
    (⟨0, []⟩ : SampleFloat64Snapshot).Clear =
      PanicOr.panicked ("Clear called on a SampleFloat64Snapshot") ∧
    (⟨⟨0, []⟩⟩ : HistogramSnapshotFloat64).Update 3 =
      PanicOr.panicked ("Update called on a HistogramSnapshotFloat64") :=
  ⟨(snapshot_mutation_panics.1 ⟨0, []⟩).1, (snapshot_mutation_panics.2 ⟨⟨0, []⟩⟩).2.1 3⟩

/-! ### Aliasing model for snapshot immutability (C9)

In Go the live reservoir mutates its backing slice in place, so snapshot
immutability rests on `Snapshot` copying into a freshly allocated array.  To
state that faithfully, the float64 arrays are placed in an explicit store of
allocated arrays addressed by references; the live uniform reservoir writes
through its own reference, and `Snapshot` allocates a fresh array holding a
copy of the current contents (the `make` + `copy` in the Go code).  The
decaying reservoir's heap is a private `[]expDecaySampleFloat64` never shared
with any snapshot; its operations do not touch the float64 store at all, and
its `Snapshot` likewise copies `v`-fields into a fresh allocation. -/

/-- Store of allocated float64 arrays; a reference is an allocation index. -/
structure Store where
  arrs : List (List ℚ)
deriving DecidableEq, Repr

def Store.read (st : Store) (r : ℕ) : List ℚ := st.arrs.getD r []

def Store.alloc (st : Store) (a : List ℚ) : ℕ × Store :=
  (st.arrs.length, ⟨st.arrs ++ [a]⟩)

def Store.write (st : Store) (r : ℕ) (a : List ℚ) : Store := ⟨st.arrs.set r a⟩

/-- `UniformSampleFloat64` with its value slice held by reference. -/
structure UniformRef where
  count : ℤ
  reservoirSize : ℕ
  ref : ℕ
deriving DecidableEq, Repr

/-- `UniformSampleFloat64.Update` acting through the store. -/
def uniformRefUpdate (r : ℤ) (v : ℚ) (s : UniformRef) (st : Store) :
    UniformRef × Store :=
  if (st.read s.ref).length < s.reservoirSize then
    ({ s with count := s.count + 1 }, st.write s.ref (st.read s.ref ++ [v]))
  else if r < ((st.read s.ref).length : ℤ) then
    ({ s with count := s.count + 1 }, st.write s.ref ((st.read s.ref).set r.toNat v))
  else ({ s with count := s.count + 1 }, st)

/-- `UniformSampleFloat64.Clear` acting through the store: `make` allocates a
fresh empty backing array. -/
def uniformRefClear (s : UniformRef) (st : Store) : UniformRef × Store :=
  (({ s with count := 0, ref := (st.alloc []).1 }), (st.alloc []).2)

/-- `UniformSampleFloat64.Snapshot` acting through the store: the snapshot is
the pair (count at capture, reference to a freshly allocated copy). -/
def uniformRefSnapshot (s : UniformRef) (st : Store) : (ℤ × ℕ) × Store :=
  ((s.count, (st.alloc (st.read s.ref)).1), (st.alloc (st.read s.ref)).2)

def uniformRefStep (p : UniformRef × Store) (op : UniformOp) : UniformRef × Store :=
  match op with
  | .update r v => uniformRefUpdate r v p.1 p.2
  | .clear => uniformRefClear p.1 p.2

def uniformRefRun (ops : List UniformOp) (p : UniformRef × Store) :
    UniformRef × Store :=
  ops.foldl uniformRefStep p

/-- `ExpDecaySampleFloat64.Snapshot` acting through the store: copy of the
heap's `v`-fields in a fresh allocation, paired with the count at capture. -/
def expDecayRefSnapshot (s : ExpDecaySampleFloat64) (st : Store) : (ℤ × ℕ) × Store :=
  ((s.count, (st.alloc (s.values.map (fun e => e.v))).1),
    (st.alloc (s.values.map (fun e => e.v))).2)

/-- A live decaying-reservoir operation leaves the float64 store untouched:
`update` and `Clear` mutate only the private heap slice. -/
def expDecayRefStep (E : ℚ → ℚ) (p : ExpDecaySampleFloat64 × Store)
    (op : ExpDecayOp) : Option (ExpDecaySampleFloat64 × Store) :=
  match expDecayStep E p.1 op with
  | none => none
  | some s2 => some (s2, p.2)

def expDecayRefRun (E : ℚ → ℚ) (ops : List ExpDecayOp)
    (p : ExpDecaySampleFloat64 × Store) : Option (ExpDecaySampleFloat64 × Store) :=
  ops.foldlM (expDecayRefStep E) p

/-- Frame lemma: running live uniform-reservoir operations never changes the
contents of any allocated array other than the live backing array, keeps that
array allocated, and never re-points the live reservoir at it. -/
theorem uniformRefRun_frame (ops : List UniformOp) (s : UniformRef) (st : Store)
    (q : ℕ) (hq : q < st.arrs.length) (hne : s.ref ≠ q) :
    (uniformRefRun ops (s, st)).2.read q = st.read q ∧
    q < (uniformRefRun ops (s, st)).2.arrs.length ∧
    (uniformRefRun ops (s, st)).1.ref ≠ q := by
  induction ops generalizing s st with
  | nil => exact ⟨rfl, hq, hne⟩
  | cons op ops ih =>
    rw [uniformRefRun, List.foldl_cons]
    cases op with
    | update r v =>
      rw [show List.foldl uniformRefStep (uniformRefStep (s, st) (UniformOp.update r v))
          ops = uniformRefRun ops (uniformRefUpdate r v s st) from rfl]
      unfold uniformRefUpdate
      split
      · have hres := ih ({ s with count := s.count + 1 })
          (st.write s.ref (st.read s.ref ++ [v]))
          (by simpa [Store.write] using hq) hne
        refine ⟨?_, hres.2.1, hres.2.2⟩
        rw [hres.1]
        show (st.arrs.set s.ref _).getD q [] = st.arrs.getD q []
        exact getD_set_ne _ _ _ _ _ hne
      · split
        · have hres := ih ({ s with count := s.count + 1 })
            (st.write s.ref ((st.read s.ref).set r.toNat v))
            (by simpa [Store.write] using hq) hne
          refine ⟨?_, hres.2.1, hres.2.2⟩
          rw [hres.1]
          show (st.arrs.set s.ref _).getD q [] = st.arrs.getD q []
          exact getD_set_ne _ _ _ _ _ hne
        · exact ih ({ s with count := s.count + 1 }) st hq hne
    | clear =>
      rw [show List.foldl uniformRefStep (uniformRefStep (s, st) UniformOp.clear)
          ops = uniformRefRun ops (uniformRefClear s st) from rfl]
      unfold uniformRefClear
      have hres := ih ({ s with count := 0, ref := (st.alloc []).1 })
        (st.alloc []).2 (by simp [Store.alloc]; omega) (by simp [Store.alloc]; omega)
      refine ⟨?_, hres.2.1, hres.2.2⟩
      rw [hres.1]
      show (st.arrs ++ [[]]).getD q [] = st.arrs.getD q []
      exact getD_append_lt _ _ _ _ hq

/-- The decaying reservoir's live operations never touch the store. -/
theorem expDecayRefRun_store (E : ℚ → ℚ) (ops : List ExpDecayOp)
    (p p2 : ExpDecaySampleFloat64 × Store) (h : expDecayRefRun E ops p = some p2) :
    p2.2 = p.2 := by
  induction ops generalizing p with
  | nil => exact congrArg Prod.snd (Option.some.inj h).symm
  | cons op ops ih =>
    rw [expDecayRefRun, List.foldlM_cons] at h
    cases hstep : expDecayStep E p.1 op with
    | none =>
      rw [show expDecayRefStep E p op = none by rw [expDecayRefStep, hstep]] at h
      simp at h
    | some s1 =>
      rw [show expDecayRefStep E p op = some (s1, p.2) by rw [expDecayRefStep, hstep]] at h
      exact ih (s1, p.2) h

/-- C9: a snapshot taken from a live reservoir is never changed by later
`Update`/`Clear` operations on the originating live instance: for the uniform
reservoir the snapshot's freshly copied array still reads exactly the captured
values after any run, and for the decaying reservoir the store holding
snapshot arrays is untouched by live operations; the captured count is part of
the frozen pair in both cases. -/
theorem snapshot_immune_to_live_updates :
    (∀ (s : UniformRef) (st : Store) (ops : List UniformOp),
      s.ref < st.arrs.length →
      ((uniformRefRun ops (s, (uniformRefSnapshot s st).2)).2.read
          (uniformRefSnapshot s st).1.2 = st.read s.ref ∧
        (uniformRefSnapshot s st).1.1 = s.count)) ∧
    (∀ (E : ℚ → ℚ) (se : ExpDecaySampleFloat64) (st : Store) (ops : List ExpDecayOp)
      (p2 : ExpDecaySampleFloat64 × Store),
      expDecayRefRun E ops (se, (expDecayRefSnapshot se st).2) = some p2 →
      (p2.2.read (expDecayRefSnapshot se st).1.2 = se.values.map (fun e => e.v) ∧
        (expDecayRefSnapshot se st).1.1 = se.count)) := by
  constructor
  · intro s st ops href
    have hframe := uniformRefRun_frame ops s (uniformRefSnapshot s st).2
      (uniformRefSnapshot s st).1.2
      (by simp [uniformRefSnapshot, Store.alloc])
      (by simp only [uniformRefSnapshot, Store.alloc]; omega)
    refine ⟨?_, rfl⟩
    rw [hframe.1]
    show ((st.arrs ++ [st.read s.ref]).getD st.arrs.length []) = st.read s.ref
    exact getD_append_last _ _ _
  · intro E se st ops p2 h
    have hst := expDecayRefRun_store E ops _ p2 h
    refine ⟨?_, rfl⟩
    rw [hst]
    show ((st.arrs ++ [se.values.map (fun e => e.v)]).getD st.arrs.length []) =
      se.values.map (fun e => e.v)
    exact getD_append_last _ _ _

/-- Witness for C9: one snapshot followed by an update on each reservoir. -/
theorem snapshot_immune_to_live_updates_witness :
    ((0 : ℕ) < (⟨[[5]]⟩ : Store).arrs.length ∧
      ((uniformRefRun [UniformOp.update 0 7]
          ((⟨1, 1, 0⟩ : UniformRef), (uniformRefSnapshot ⟨1, 1, 0⟩ ⟨[[5]]⟩).2)).2.read
          (uniformRefSnapshot (⟨1, 1, 0⟩ : UniformRef) ⟨[[5]]⟩).1.2 =
        (⟨[[5]]⟩ : Store).read 0 ∧
        (uniformRefSnapshot (⟨1, 1, 0⟩ : UniformRef) ⟨[[5]]⟩).1.1 = 1)) ∧
    (expDecayRefRun (fun _ => 1) [ExpDecayOp.clear 2]
        ((⟨1, 1, 1, 0, 3600, [⟨2, 5⟩]⟩ : ExpDecaySampleFloat64),
          (expDecayRefSnapshot ⟨1, 1, 1, 0, 3600, [⟨2, 5⟩]⟩ ⟨[]⟩).2) =
        some (ExpDecaySampleFloat64.Clear ⟨1, 1, 1, 0, 3600, [⟨2, 5⟩]⟩ 2, ⟨[[5]]⟩) ∧
      ((⟨[[5]]⟩ : Store).read
          (expDecayRefSnapshot (⟨1, 1, 1, 0, 3600, [⟨2, 5⟩]⟩ : ExpDecaySampleFloat64)
            ⟨[]⟩).1.2 =
        ([⟨2, 5⟩] : List ExpDecaySample).map (fun e => e.v) ∧
        (expDecayRefSnapshot (⟨1, 1, 1, 0, 3600, [⟨2, 5⟩]⟩ : ExpDecaySampleFloat64)
          ⟨[]⟩).1.1 = 1)) := by
  refine ⟨⟨by decide, snapshot_immune_to_live_updates.1 ⟨1, 1, 0⟩ ⟨[[5]]⟩
    [UniformOp.update 0 7] (by decide)⟩, ?_, ?_⟩
  · rfl
  · exact snapshot_immune_to_live_updates.2 (fun _ => 1) ⟨1, 1, 1, 0, 3600, [⟨2, 5⟩]⟩
      ⟨[]⟩ [ExpDecayOp.clear 2] _ rfl

end GoMetrics
